import Mathlib

/-!
# Verification of the skill dependency-graph engine

Shallow embedding of the dependency-graph core of the `agent-skills`
repository: the graph builder (`src/graph/mod.rs`, `SkillGraph::from_skills`),
the analyzer (`detect_clusters`, `find_roots`, `find_leaves`, `find_bridges`),
the subgraph extractor (`filter_to_skills`, `filter_pipeline`, `filter_tag`),
the four exporters (`to_dot`, `to_text`, `to_json`, `to_mermaid`), the filter
stage of the `graph` command (`src/commands/graph.rs`), and the navigation
state machine of the interactive graph explorer (`src/tui/graph_view.rs`).

Modelling conventions:
* Rust `HashMap`s whose iteration order drives edge insertion are modelled as
  association lists; a fixed list fixes the iteration order, which is exactly
  the "identical input" premise of the determinism property.
* `HashSet`s used only for membership are modelled as lists queried with `∈`.
* The builder's `edge_set` hash set is updated in lockstep with the edge list
  (a pair is inserted exactly when an edge with that pair is pushed), so it is
  modelled as the image of the accumulated edge list under `pairOf`.
* Strings, naturals and lists are the Lean counterparts of the Rust types.
-/

namespace AgentSkills

/-- Detection method carried by a cross-reference (`crate::skill::DetectionMethod`);
opaque to the graph engine, carried through but never interpreted. -/
inductive DetectionMethod where
  | XmlCrossref
  | MarkdownLink
  deriving DecidableEq, Repr

/-- A cross-reference record (`crate::skill::CrossRef`): target skill name,
line number and detection method.  `line` and `method` are carried through
but not interpreted by the graph engine. -/
structure CrossRef where
  target : String
  line : Nat
  method : DetectionMethod
  deriving DecidableEq, Repr

/-- One pipeline stage declaration
(`crate::skill::frontmatter::PipelineStage`). -/
structure PipelineStage where
  stage : String
  order : Nat
  after : Option (List String)
  before : Option (List String)
  deriving DecidableEq, Repr

/-- Skill frontmatter restricted to the fields the graph core reads
(`tags`, `pipeline`); the remaining metadata fields are ignored by this
core (spec §6) and therefore omitted.  The `pipeline` map is an association
list `pipeline name → stage`, whose order models the `HashMap` iteration
order. -/
structure Frontmatter where
  name : String
  description : String
  tags : Option (List String)
  pipeline : Option (List (String × PipelineStage))
  deriving DecidableEq, Repr

/-- A discovered skill (`crate::skill::Skill`), restricted to the fields the
graph core reads: its name and its frontmatter (the path fields are
filesystem plumbing outside the core). -/
structure Skill where
  name : String
  frontmatter : Frontmatter
  deriving DecidableEq, Repr

/-- Edge type in the skill graph (`EdgeKind` in `src/graph/mod.rs`). -/
inductive EdgeKind where
  | CrossRef
  | Pipeline
  deriving DecidableEq, Repr

/-- One directed edge of the skill graph: the petgraph `DiGraph` stores
string node weights and `EdgeKind` edge weights; an edge is recorded here by
its endpoint names and kind.  Edges are kept in insertion order, as petgraph
edge indices are. -/
structure Edge where
  source : String
  target : String
  kind : EdgeKind
  deriving DecidableEq, Repr

/-- The `(source, target)` pair of an edge, the key used by the builder's
dedup set. -/
def pairOf (e : Edge) : String × String := (e.source, e.target)

/-- The crossref input of the builder:
`HashMap<String, Vec<CrossRef>>` modelled as an association list whose order
is the map's iteration order. -/
abbrev Crossrefs := List (String × List CrossRef)

/-- All names inserted into the builder's `all_skills` set, in insertion
order: for each crossref entry its key then its targets (lines 50–55 of
`src/graph/mod.rs`), then every discovered skill name (lines 58–60). -/
def collectNames (crossrefs : Crossrefs) (skills : List Skill) : List String :=
  (crossrefs.flatMap (fun p => p.1 :: p.2.map (·.target))) ++ skills.map (·.name)

/-- Executable lexicographic comparison of char lists by code point:
the order in which `Vec::sort` arranges skill names (Rust's `Ord` for
`String` is lexicographic). -/
def charListLe : List Char → List Char → Bool
  | [], _ => true
  | _ :: _, [] => false
  | a :: as, b :: bs =>
    if a.toNat < b.toNat then true
    else if b.toNat < a.toNat then false
    else charListLe as bs

/-- The total order on skill names used by every sort in the engine:
lexicographic by code point. -/
def strLe (s t : String) : Prop :=
  charListLe s.data t.data = true

instance : DecidableRel strLe := fun s t =>
  inferInstanceAs (Decidable (charListLe s.data t.data = true))

/-- `Vec::sort` on skill names (lines 63–64): lexicographic, stable. -/
def sortNames (l : List String) : List String :=
  l.insertionSort strLe

/-- The node list of the built graph: the distinct collected names in
lexicographically sorted order (lines 62–68).  The `HashSet` is modelled by
`dedup`; sorting the distinct names is order-canonical. -/
def nodesOf (crossrefs : Crossrefs) (skills : List Skill) : List String :=
  sortNames (collectNames crossrefs skills).dedup

/-- One conditional edge insertion, shared by the crossref branch
(lines 74–80) and the two pipeline branches (lines 91–113): if the
`(source, target)` pair is already in `edge_set` do nothing, otherwise add
the edge when the endpoint lookups succeed (`cond`).  `edge_set` is the
`pairOf` image of the accumulated edges. -/
def tryAddEdge (es : List Edge) (cond : Prop) [Decidable cond] (e : Edge) : List Edge :=
  if pairOf e ∈ es.map pairOf then es
  else if cond then es ++ [e] else es

/-- Crossref edges of one map entry (lines 71–82): for each reference in
order, add a `CrossRef` edge from the entry key to the reference target if
the pair is unseen and the target is a node. -/
def addCrossrefEdges (nodes : List String) (es : List Edge) (source : String)
    (refs : List CrossRef) : List Edge :=
  refs.foldl (fun es r =>
    tryAddEdge es (r.target ∈ nodes) { source := source, target := r.target, kind := .CrossRef }) es

/-- The whole crossref phase (lines 70–82), iterating the crossref map in
its (modelled) iteration order. -/
def crossrefPhase (nodes : List String) (crossrefs : Crossrefs) : List Edge :=
  crossrefs.foldl (fun es p => addCrossrefEdges nodes es p.1 p.2) []

/-- `after` means this skill depends on those skills (lines 89–101):
edge from the skill to each dependency. -/
def addAfterEdges (nodes : List String) (skillName : String) (es : List Edge)
    (deps : List String) : List Edge :=
  deps.foldl (fun es dep =>
    tryAddEdge es (skillName ∈ nodes ∧ dep ∈ nodes)
      { source := skillName, target := dep, kind := .Pipeline }) es

/-- `before` means those skills depend on this skill — reverse direction
(lines 102–115): edge from each dependency name to the skill. -/
def addBeforeEdges (nodes : List String) (skillName : String) (es : List Edge)
    (deps : List String) : List Edge :=
  deps.foldl (fun es dep =>
    tryAddEdge es (dep ∈ nodes ∧ skillName ∈ nodes)
      { source := dep, target := skillName, kind := .Pipeline }) es

/-- Edges contributed by one pipeline stage (lines 87–116): the `after`
list first, then the `before` list. -/
def addStageEdges (nodes : List String) (skillName : String) (es : List Edge)
    (st : PipelineStage) : List Edge :=
  addBeforeEdges nodes skillName (addAfterEdges nodes skillName es (st.after.getD []))
    (st.before.getD [])

/-- The pipeline stages of a skill in map-iteration order
(`pipeline.values()`, line 87); `[]` when the skill declares no pipeline. -/
def pipelineStages (sk : Skill) : List PipelineStage :=
  match sk.frontmatter.pipeline with
  | none => []
  | some m => m.map (·.2)

/-- Edges contributed by one skill's pipeline declarations (lines 85–118). -/
def addSkillEdges (nodes : List String) (es : List Edge) (sk : Skill) : List Edge :=
  (pipelineStages sk).foldl (fun es st => addStageEdges nodes sk.name es st) es

/-- The whole pipeline phase (lines 84–118), iterating the skill list in
order. -/
def skillsPhase (nodes : List String) (skills : List Skill) (es : List Edge) : List Edge :=
  skills.foldl (fun es sk => addSkillEdges nodes es sk) es

/-- The full edge list built by `from_skills`: crossref phase then pipeline
phase. -/
def buildEdgeList (nodes : List String) (crossrefs : Crossrefs)
    (skills : List Skill) : List Edge :=
  skillsPhase nodes skills (crossrefPhase nodes crossrefs)

/-- Number of edges pointing at `n`. -/
def inDegree (edges : List Edge) (n : String) : Nat :=
  (edges.filter (fun e => e.target = n)).length

/-- Number of edges leaving `n`. -/
def outDegree (edges : List Edge) (n : String) : Nat :=
  (edges.filter (fun e => e.source = n)).length

/-- Direct successors of a node. -/
def successors (edges : List Edge) (n : String) : List String :=
  (edges.filter (fun e => e.source = n)).map (·.target)

/-- One breadth-expansion step of the visited set. -/
def reachExpand (edges : List Edge) (vis : List String) : List String :=
  vis ++ ((vis.flatMap (successors edges)).filter (fun x => ¬ x ∈ vis)).dedup

/-- Nodes reachable from the start set in at most `fuel` steps. -/
def reachList (edges : List Edge) : Nat → List String → List String
  | 0, vis => vis
  | n + 1, vis => reachList edges n (reachExpand edges vis)

/-- Decidable reachability with fuel. -/
def reachableB (edges : List Edge) (fuel : Nat) (a b : String) : Bool :=
  (reachList edges fuel [a]).contains b

/-- The strongly connected component of `v`: all nodes mutually reachable
with `v`, in node order. -/
def sccOf (nodes : List String) (edges : List Edge) (v : String) : List String :=
  nodes.filter (fun u =>
    reachableB edges nodes.length v u && reachableB edges nodes.length u v)

/-- `detect_clusters` (lines 363–381): the strongly connected components of
size > 1.  The source delegates to petgraph's `tarjan_scc` (external library
code); it is modelled denotationally — each component listed once, keyed by
its first member in node order — since only membership and sizes are
observable through this core. -/
def detect_clusters (nodes : List String) (edges : List Edge) : List (List String) :=
  ((nodes.filter (fun v => (sccOf nodes edges v).head? = some v)).map
    (sccOf nodes edges)).filter (fun c => c.length > 1)

/-- `find_roots` (lines 383–402): names with no incoming edges, sorted.
The source iterates the `name_to_node` map (arbitrary order) and sorts at
the end; filtering the node list and sorting is order-equivalent. -/
def find_roots (nodes : List String) (edges : List Edge) : List String :=
  sortNames (nodes.filter (fun n => inDegree edges n = 0))

/-- `find_leaves` (lines 404–423): names with no outgoing edges, sorted. -/
def find_leaves (nodes : List String) (edges : List Edge) : List String :=
  sortNames (nodes.filter (fun n => outDegree edges n = 0))

/-- `find_bridges` (lines 425–453): the documented heuristic — names with
both incoming and outgoing edges, sorted. -/
def find_bridges (nodes : List String) (edges : List Edge) : List String :=
  sortNames (nodes.filter (fun n => inDegree edges n > 0 && outDegree edges n > 0))

/-- A skill dependency graph with analysis results (`SkillGraph`).
`nodes` doubles as the `name_to_node` key set (names are unique); `edges`
is in insertion order as petgraph edge indices are. -/
structure SkillGraph where
  nodes : List String
  edges : List Edge
  clusters : List (List String)
  roots : List String
  leaves : List String
  bridges : List String
  deriving DecidableEq, Repr

namespace SkillGraph

/-- `SkillGraph::from_skills` (lines 43–134): collect and sort the node
names, add deduplicated crossref edges then pipeline edges, and attach the
analysis results. -/
def from_skills (crossrefs : Crossrefs) (skills : List Skill) : SkillGraph :=
  let nodes := nodesOf crossrefs skills
  let edges := buildEdgeList nodes crossrefs skills
  { nodes := nodes
    edges := edges
    clusters := detect_clusters nodes edges
    roots := find_roots nodes edges
    leaves := find_leaves nodes edges
    bridges := find_bridges nodes edges }

/-- `SkillGraph::from_crossrefs` (lines 137–139): backward-compatible
wrapper. -/
def from_crossrefs (crossrefs : Crossrefs) : SkillGraph :=
  from_skills crossrefs []

/-- The degenerate crossref record used by `filter_to_skills`
(lines 188–192): `line` 0, method `XmlCrossref`. -/
def degenerateRef (target : String) : CrossRef :=
  { target := target, line := 0, method := .XmlCrossref }

/-- The crossref-shaped input rebuilt by `filter_to_skills`
(lines 177–197): for each kept node, its outgoing edges with kept targets,
re-expressed as degenerate crossrefs; entries with no edges are omitted.
The source iterates `name_to_node` (arbitrary `HashMap` order); the node
list order is used here, one fixed iteration order among the admissible
ones. -/
def rebuildCrossrefs (g : SkillGraph) (keep : List String) : Crossrefs :=
  g.nodes.filterMap (fun n =>
    if n ∈ keep then
      let refs := (g.edges.filter (fun e => e.source = n ∧ e.target ∈ keep)).map
        (fun e => degenerateRef e.target)
      if refs = [] then none else some (n, refs)
    else none)

/-- `SkillGraph::filter_to_skills` (lines 176–207): rebuild a crossref
input restricted to kept nodes and kept-endpoint edges, restrict the skill
list to kept names, and re-invoke the builder. -/
def filter_to_skills (g : SkillGraph) (keep : List String) (skills : List Skill) : SkillGraph :=
  from_skills (rebuildCrossrefs g keep) (skills.filter (fun s => s.name ∈ keep))

/-- Whether a skill declares a stage of the pipeline named `pname`
(`p.contains_key(pipeline_name)`, lines 145–151). -/
def hasPipelineKey (pname : String) (s : Skill) : Bool :=
  match s.frontmatter.pipeline with
  | none => false
  | some m => m.any (fun p => p.1 = pname)

/-- Whether a skill carries tag `t` (lines 162–168). -/
def hasTag (t : String) (s : Skill) : Bool :=
  (s.frontmatter.tags.getD []).contains t

/-- `SkillGraph::filter_pipeline` (lines 142–156). -/
def filter_pipeline (g : SkillGraph) (skills : List Skill) (pname : String) : SkillGraph :=
  filter_to_skills g ((skills.filter (hasPipelineKey pname)).map (·.name)) skills

/-- `SkillGraph::filter_tag` (lines 159–173). -/
def filter_tag (g : SkillGraph) (skills : List Skill) (tag : String) : SkillGraph :=
  filter_to_skills g ((skills.filter (hasTag tag)).map (·.name)) skills

/-- Fill color of a node in the DOT export (lines 219–227): first matching
role among root, leaf, bridge wins. -/
def dotColor (g : SkillGraph) (name : String) : String :=
  if g.roots.contains name then "lightblue"
  else if g.leaves.contains name then "lightgreen"
  else if g.bridges.contains name then "orange"
  else "white"

/-- `SkillGraph::to_dot` (lines 210–249): Graphviz DOT export, nodes sorted
by name, edges in insertion order. -/
def to_dot (g : SkillGraph) : String :=
  let header := "digraph SkillGraph \x7b\n  rankdir=LR;\n  node [shape=box, style=rounded];\n\n"
  let nodeLines := (sortNames g.nodes).foldl (fun acc name =>
    acc ++ "  \"" ++ name ++ "\" [fillcolor=" ++ dotColor g name
      ++ ", style=\"rounded,filled\"];\n") ""
  let edgeLines := g.edges.foldl (fun acc e =>
    let style := match e.kind with
      | .CrossRef => ""
      | .Pipeline => " [style=dashed, color=blue]"
    acc ++ "  \"" ++ e.source ++ "\" -> \"" ++ e.target ++ "\"" ++ style ++ ";\n") ""
  header ++ nodeLines ++ "\n" ++ edgeLines ++ "\x7d\n"

/-- The outgoing target names of a node, in edge order. -/
def outTargets (g : SkillGraph) (n : String) : List String :=
  (g.edges.filter (fun e => e.source = n)).map (·.target)

/-- `SkillGraph::to_text` (lines 252–287): header with counts, then one
line per node (sorted) with its sorted, deduplicated targets.  `Vec::dedup`
removes consecutive duplicates, which after sorting removes all of them,
as `List.dedup` does. -/
def to_text (g : SkillGraph) : String :=
  let header := "# Skill Dependency Graph\n\n"
    ++ "Skills: " ++ toString g.nodes.length ++ "\n"
    ++ "Clusters: " ++ toString g.clusters.length ++ "\n"
    ++ "Roots: " ++ toString g.roots.length ++ "\n"
    ++ "Leaves: " ++ toString g.leaves.length ++ "\n"
    ++ "Bridges: " ++ toString g.bridges.length ++ "\n\n"
    ++ "## Dependencies\n\n"
  (sortNames g.nodes).foldl (fun acc skill =>
    let targets := (sortNames (g.outTargets skill)).dedup
    if targets.isEmpty then acc ++ skill ++ ": (none)\n"
    else acc ++ skill ++ ": " ++ String.intercalate ", " targets ++ "\n") header

/-- JSON string literal for a skill name (names contain no characters that
need escaping in this model). -/
def jsonStr (s : String) : String := "\"" ++ s ++ "\""

/-- JSON boolean literal. -/
def jsonBool (b : Bool) : String := if b then "true" else "false"

/-- One node record of the JSON export (lines 298–303); `serde_json` object
keys come out sorted (its map is a `BTreeMap`). -/
def nodeJson (g : SkillGraph) (name : String) : String :=
  "\x7b\"id\":" ++ jsonStr name
    ++ ",\"is_bridge\":" ++ jsonBool (g.bridges.contains name)
    ++ ",\"is_leaf\":" ++ jsonBool (g.leaves.contains name)
    ++ ",\"is_root\":" ++ jsonBool (g.roots.contains name) ++ "\x7d"

/-- One edge record of the JSON export (lines 305–316). -/
def edgeJson (e : Edge) : String :=
  "\x7b\"kind\":" ++ jsonStr (match e.kind with
      | .CrossRef => "crossref"
      | .Pipeline => "pipeline")
    ++ ",\"source\":" ++ jsonStr e.source
    ++ ",\"target\":" ++ jsonStr e.target ++ "\x7d"

/-- `SkillGraph::to_json` (lines 290–325): nodes in sorted order, each
node's outgoing edges grouped behind it, plus the raw cluster list; object
keys in `serde_json`'s sorted key order. -/
def to_json (g : SkillGraph) : String :=
  let ns := sortNames g.nodes
  let nodeStrs := ns.map (fun n => nodeJson g n)
  let edgeStrs := ns.flatMap (fun n =>
    (g.edges.filter (fun e => e.source = n)).map edgeJson)
  let clusterStrs := g.clusters.map (fun c =>
    "[" ++ String.intercalate "," (c.map jsonStr) ++ "]")
  "\x7b\"clusters\":[" ++ String.intercalate "," clusterStrs ++ "]"
    ++ ",\"edges\":[" ++ String.intercalate "," edgeStrs ++ "]"
    ++ ",\"nodes\":[" ++ String.intercalate "," nodeStrs ++ "]\x7d"

/-- `sanitize_mermaid` (lines 359–361): replace `-` by `_`. -/
def sanitizeMermaid (s : String) : String :=
  s.map (fun c => if c = '-' then '_' else c)

/-- `SkillGraph::to_mermaid` (lines 328–356): one arrow per unique
`(source, target)` pair in edge order, first seen kind wins. -/
def to_mermaid (g : SkillGraph) : String :=
  (g.edges.foldl (fun (acc : String × List (String × String)) e =>
    if (e.source, e.target) ∈ acc.2 then acc
    else
      let arrow := match e.kind with
        | .CrossRef => "-->"
        | .Pipeline => "-.->"
      (acc.1 ++ "  " ++ sanitizeMermaid e.source ++ "[" ++ e.source ++ "] " ++ arrow
        ++ " " ++ sanitizeMermaid e.target ++ "[" ++ e.target ++ "]\n",
       acc.2 ++ [(e.source, e.target)])) ("graph LR\n", [])).1

end SkillGraph

/-- Optional filter for the graph command (`GraphFilter` in
`src/commands/graph.rs`). -/
inductive GraphFilter where
  | none
  | pipeline (name : String)
  | tag (t : String)
  deriving DecidableEq, Repr

/-- The sorted, deduplicated list of declared pipeline names
(lines 73–82 of `src/commands/graph.rs`): all pipeline keys of all skills,
sorted then deduplicated (`Vec::dedup` on a sorted vector removes all
duplicates). -/
def availablePipelines (skills : List Skill) : List String :=
  (sortNames (skills.flatMap (fun s =>
    match s.frontmatter.pipeline with
    | Option.none => []
    | Option.some p => p.map (·.1)))).dedup

/-- The error message of the only failure path inside the core
(lines 83–87 of `src/commands/graph.rs`). -/
def pipelineNotFoundMsg (name : String) (skills : List Skill) : String :=
  "Pipeline \x27" ++ name ++ "\x27 not found. Available: "
    ++ String.intercalate ", " (availablePipelines skills)

/-- The filter stage of the `graph` command (lines 61–92 of
`src/commands/graph.rs`): `None` passes the full graph through; `Pipeline`
verifies the pipeline exists and fails otherwise; `Tag` filters without any
verification.  Skill discovery and crossref extraction are external
collaborators, so the discovered skills and the built full graph are taken
as inputs. -/
def runGraphFilter (allSkills : List Skill) (fullGraph : SkillGraph)
    (filter : GraphFilter) : Except String SkillGraph :=
  match filter with
  | .none => .ok fullGraph
  | .pipeline name =>
    if allSkills.any (SkillGraph.hasPipelineKey name) then
      .ok (fullGraph.filter_pipeline allSkills name)
    else
      .error (pipelineNotFoundMsg name allSkills)
  | .tag t => .ok (fullGraph.filter_tag allSkills t)

/-- Navigation mode for the graph explorer (`NavigationMode` in
`src/tui/graph_view.rs`). -/
inductive NavigationMode where
  | Browse
  | Focus
  deriving DecidableEq, Repr

namespace SkillGraph

/-- Modelled from the spec: `SkillGraph::node_names`, declared in
repository code not present under `src/` (called by the graph explorer).
Per spec §4.5 the Browse list is "a flat, cyclically-navigable list of all
node names", and §4.1 step 2 makes node order the deterministic sorted
order, so it returns the node list. -/
def node_names (g : SkillGraph) : List String := g.nodes

/-- Modelled from the spec: `SkillGraph::node_count`, repository code not
present under `src/`; the number of nodes (shown in the Browse title). -/
def node_count (g : SkillGraph) : Nat := g.nodes.length

/-- Modelled from the spec: `SkillGraph::edge_count`, repository code not
present under `src/`; the number of edges. -/
def edge_count (g : SkillGraph) : Nat := g.edges.length

/-- Modelled from the spec: `SkillGraph::edges_from`, repository code not
present under `src/`.  The outgoing `(target, kind)` pairs of a known node,
`none` for an unknown name (callers apply `.map(...).unwrap_or(0)`). -/
def edges_from (g : SkillGraph) (n : String) : Option (List (String × EdgeKind)) :=
  if n ∈ g.nodes then
    some ((g.edges.filter (fun e => e.source = n)).map (fun e => (e.target, e.kind)))
  else none

/-- Modelled from the spec: `SkillGraph::edges_to`, repository code not
present under `src/`.  The incoming `(source, kind)` pairs of a known node,
`none` for an unknown name. -/
def edges_to (g : SkillGraph) (n : String) : Option (List (String × EdgeKind)) :=
  if n ∈ g.nodes then
    some ((g.edges.filter (fun e => e.target = n)).map (fun e => (e.source, e.kind)))
  else none

end SkillGraph

/-- Direction tag of an entry in the Focus-mode edge list
(`EdgeDirection` in `src/tui/graph_view.rs`). -/
inductive EdgeDirection where
  | Outgoing
  | Incoming
  deriving DecidableEq, Repr

/-- State of the graph explorer (`GraphViewState`).  A ratatui `ListState`
is its selected index (`Option Nat`). -/
structure GraphViewState where
  mode : NavigationMode
  list_state : Option Nat
  graph : Option SkillGraph
  trail : List String
  edge_list_state : Option Nat
  deriving DecidableEq, Repr

namespace GraphViewState

/-- `GraphViewState::new` (lines 40–52): Browse mode, both cursors at 0,
no graph, empty trail. -/
def new : GraphViewState :=
  { mode := .Browse
    list_state := some 0
    graph := Option.none
    trail := []
    edge_list_state := some 0 }

/-- `GraphViewState::refresh` (lines 55–82).  The crossref map is extracted
from skill files by an external collaborator; it is taken here as an input.
Builds the graph, resets the list cursor to 0 when the skill list is
non-empty, clears the trail and forces Browse mode. -/
def refresh (st : GraphViewState) (crossrefs : Crossrefs) (skills : List Skill) :
    GraphViewState :=
  { st with
    graph := some (SkillGraph.from_skills crossrefs skills)
    list_state := if skills.isEmpty then st.list_state else some 0
    trail := []
    mode := .Browse }

/-- `GraphViewState::focused_skill` (lines 85–95): the selected row's name
in Browse, the trail top in Focus. -/
def focused_skill (st : GraphViewState) : Option String :=
  match st.mode with
  | .Browse => do
    let g ← st.graph
    let idx ← st.list_state
    (SkillGraph.node_names g)[idx]?
  | .Focus => st.trail.getLast?

/-- `GraphViewState::toggle_mode` (lines 98–113): from Browse, push the
selected name and enter Focus (no-op when nothing is selected); from Focus,
return to Browse without touching the trail. -/
def toggle_mode (st : GraphViewState) : GraphViewState :=
  match st.mode with
  | .Browse =>
    match st.focused_skill with
    | some sk =>
      { st with trail := st.trail ++ [sk], mode := .Focus, edge_list_state := some 0 }
    | Option.none => st
  | .Focus => { st with mode := .Browse }

/-- `GraphViewState::navigate_back` (lines 116–124): in Focus with more
than one trail entry, pop the last and reset the edge cursor; in Focus
otherwise, clear the trail and return to Browse. -/
def navigate_back (st : GraphViewState) : GraphViewState :=
  if st.mode = .Focus ∧ st.trail.length > 1 then
    { st with trail := st.trail.dropLast, edge_list_state := some 0 }
  else if st.mode = .Focus then
    { st with mode := .Browse, trail := [] }
  else st

/-- The combined outgoing-then-incoming edge list built in Focus mode
(lines 142–153 and 469–482). -/
def allEdgesOf (g : SkillGraph) (n : String) : List (String × EdgeKind × EdgeDirection) :=
  ((g.edges_from n).getD []).map (fun p => (p.1, p.2, EdgeDirection.Outgoing))
    ++ ((g.edges_to n).getD []).map (fun p => (p.1, p.2, EdgeDirection.Incoming))

/-- `count_edges` (lines 279–283): outgoing plus incoming edge count. -/
def count_edges (g : SkillGraph) (n : String) : Nat :=
  ((g.edges_from n).map List.length).getD 0 + ((g.edges_to n).map List.length).getD 0

/-- `GraphViewState::follow_edge` (lines 127–164): in Focus, push the name
at the edge-cursor position of the combined edge list and reset the edge
cursor; no-op outside Focus, with an empty trail, without a graph, or with
no edges. -/
def follow_edge (st : GraphViewState) : GraphViewState :=
  if st.mode ≠ NavigationMode.Focus then st
  else
    match st.trail.getLast? with
    | Option.none => st
    | some current =>
      match st.graph with
      | Option.none => st
      | some g =>
        let all := allEdgesOf g current
        if all.isEmpty then st
        else
          match all[st.edge_list_state.getD 0]? with
          | some (target, _, _) =>
            { st with trail := st.trail ++ [target], edge_list_state := some 0 }
          | Option.none => st

/-- `GraphViewState::next` (lines 167–217): cyclic downward move of the
browse cursor over the node list, or of the edge cursor over the combined
edge list of the trail top. -/
def nav_next (st : GraphViewState) : GraphViewState :=
  match st.mode with
  | .Browse =>
    match st.graph with
    | Option.none => st
    | some g =>
      let n := g.node_count
      if n = 0 then st
      else
        let i := match st.list_state with
          | some i => if i ≥ n - 1 then 0 else i + 1
          | Option.none => 0
        { st with list_state := some i }
  | .Focus =>
    match st.trail.getLast? with
    | Option.none => st
    | some current =>
      match st.graph with
      | Option.none => st
      | some g =>
        let ec := count_edges g current
        if ec = 0 then st
        else
          let i := match st.edge_list_state with
            | some i => if i ≥ ec - 1 then 0 else i + 1
            | Option.none => 0
          { st with edge_list_state := some i }

/-- `GraphViewState::previous` (lines 220–270): cyclic upward move, wrapping
to the last index at the top. -/
def nav_previous (st : GraphViewState) : GraphViewState :=
  match st.mode with
  | .Browse =>
    match st.graph with
    | Option.none => st
    | some g =>
      let n := g.node_count
      if n = 0 then st
      else
        let i := match st.list_state with
          | some i => if i = 0 then n - 1 else i - 1
          | Option.none => 0
        { st with list_state := some i }
  | .Focus =>
    match st.trail.getLast? with
    | Option.none => st
    | some current =>
      match st.graph with
      | Option.none => st
      | some g =>
        let ec := count_edges g current
        if ec = 0 then st
        else
          let i := match st.edge_list_state with
            | some i => if i = 0 then ec - 1 else i - 1
            | Option.none => 0
          { st with edge_list_state := some i }

end GraphViewState

/-- The edges a crossref map lists verbatim, entry by entry: for each entry,
one `CrossRef` edge from the key to each reference target.  This is what the
crossref phase produces when no pair is duplicated and no target is
dangling. -/
def listedEdges (c : Crossrefs) : List Edge :=
  c.flatMap (fun p => p.2.map (fun r =>
    { source := p.1, target := r.target, kind := EdgeKind.CrossRef }))

/-- Re-expression of an edge as a `CrossRef` edge with the same endpoints —
the effect of `filter_to_skills` on a retained edge. -/
def reCross (e : Edge) : Edge :=
  { source := e.source, target := e.target, kind := EdgeKind.CrossRef }

/-- Test fixture: a skill with no tags and no pipeline. -/
def plainSkill (n : String) : Skill :=
  { name := n, frontmatter := { name := n, description := "", tags := none, pipeline := none } }

/-- Test fixture: a skill with one pipeline stage declaring `before: [dep]`. -/
def beforeSkill (n dep : String) : Skill :=
  { name := n
    frontmatter :=
      { name := n, description := "", tags := none
        pipeline := some [("p", { stage := "s", order := 1, after := none,
                                  before := some [dep] })] } }

/-- Test fixture: a skill with one pipeline stage declaring `after: [dep]`. -/
def afterSkill (n dep : String) : Skill :=
  { name := n
    frontmatter :=
      { name := n, description := "", tags := none
        pipeline := some [("p", { stage := "s", order := 1, after := some [dep],
                                  before := none })] } }

/-- Test fixture: a skill with a tag list. -/
def taggedSkill (n : String) (tags : List String) : Skill :=
  { name := n, frontmatter := { name := n, description := "", tags := some tags, pipeline := none } }

/-- The navigation states reachable from the initial state by the public
operations of the graph explorer. -/
inductive Reachable : GraphViewState → Prop where
  | init : Reachable GraphViewState.new
  | toggle {st : GraphViewState} : Reachable st → Reachable st.toggle_mode
  | back {st : GraphViewState} : Reachable st → Reachable st.navigate_back
  | follow {st : GraphViewState} : Reachable st → Reachable st.follow_edge
  | next {st : GraphViewState} : Reachable st → Reachable st.nav_next
  | prev {st : GraphViewState} : Reachable st → Reachable st.nav_previous
  | refresh {st : GraphViewState} (crossrefs : Crossrefs) (skills : List Skill) :
      Reachable st → Reachable (st.refresh crossrefs skills)

end AgentSkills

namespace AgentSkills

/-! ## Basic facts about sorting and node collection -/

theorem charListLe_total : ∀ as bs : List Char, charListLe as bs = true ∨ charListLe bs as = true
  | [], _ => Or.inl rfl
  | _ :: _, [] => Or.inr rfl
  | a :: as, b :: bs => by
    by_cases h1 : a.toNat < b.toNat
    · left
      simp [charListLe, h1]
    · by_cases h2 : b.toNat < a.toNat
      · right
        simp [charListLe, h2]
      · rcases charListLe_total as bs with h | h
        · left
          simp [charListLe, h1, h2, h]
        · right
          simp [charListLe, h1, h2, h]

theorem charListLe_trans : ∀ as bs cs : List Char,
    charListLe as bs = true → charListLe bs cs = true → charListLe as cs = true
  | [], _, _, _, _ => rfl
  | _ :: _, [], _, h1, _ => by simp [charListLe] at h1
  | _ :: _, _ :: _, [], _, h2 => by simp [charListLe] at h2
  | a :: as, b :: bs, c :: cs, h1, h2 => by
    simp only [charListLe] at h1 h2 ⊢
    by_cases hab : a.toNat < b.toNat
    · by_cases hbc : b.toNat < c.toNat
      · rw [if_pos (show a.toNat < c.toNat by omega)]
      · rw [if_neg hbc] at h2
        by_cases hcb : c.toNat < b.toNat
        · rw [if_pos hcb] at h2
          simp at h2
        · rw [if_pos (show a.toNat < c.toNat by omega)]
    · rw [if_neg hab] at h1
      by_cases hba : b.toNat < a.toNat
      · rw [if_pos hba] at h1
        simp at h1
      · rw [if_neg hba] at h1
        by_cases hbc : b.toNat < c.toNat
        · rw [if_pos (show a.toNat < c.toNat by omega)]
        · rw [if_neg hbc] at h2
          by_cases hcb : c.toNat < b.toNat
          · rw [if_pos hcb] at h2
            simp at h2
          · rw [if_neg hcb] at h2
            rw [if_neg (show ¬ a.toNat < c.toNat by omega),
                if_neg (show ¬ c.toNat < a.toNat by omega)]
            exact charListLe_trans as bs cs h1 h2

theorem charListLe_antisymm : ∀ as bs : List Char,
    charListLe as bs = true → charListLe bs as = true → as = bs
  | [], [], _, _ => rfl
  | [], _ :: _, _, h2 => by simp [charListLe] at h2
  | _ :: _, [], h1, _ => by simp [charListLe] at h1
  | a :: as, b :: bs, h1, h2 => by
    simp only [charListLe] at h1 h2
    by_cases hab : a.toNat < b.toNat
    · rw [if_neg (show ¬ b.toNat < a.toNat by omega), if_pos hab] at h2
      simp at h2
    · by_cases hba : b.toNat < a.toNat
      · rw [if_neg hab, if_pos hba] at h1
        simp at h1
      · rw [if_neg hab, if_neg hba] at h1
        rw [if_neg hba, if_neg hab] at h2
        have heq : a = b :=
          Char.eq_of_val_eq (UInt32.toNat.inj (show a.toNat = b.toNat by omega))
        rw [heq, charListLe_antisymm as bs h1 h2]

theorem strLe_total : ∀ a b : String, strLe a b ∨ strLe b a :=
  fun a b => charListLe_total a.data b.data

theorem strLe_trans : ∀ a b c : String, strLe a b → strLe b c → strLe a c :=
  fun a b c => charListLe_trans a.data b.data c.data

theorem strLe_antisymm : ∀ a b : String, strLe a b → strLe b a → a = b :=
  fun _ _ h1 h2 => String.ext (charListLe_antisymm _ _ h1 h2)

theorem mem_sortNames {x : String} {l : List String} : x ∈ sortNames l ↔ x ∈ l :=
  List.mem_insertionSort _

theorem sorted_sortNames (l : List String) : List.Sorted strLe (sortNames l) :=
  @List.sorted_insertionSort String strLe _ ⟨strLe_total⟩ ⟨strLe_trans⟩ l

theorem nodup_sortNames {l : List String} (h : l.Nodup) : (sortNames l).Nodup :=
  ((List.perm_insertionSort _ l).nodup_iff).mpr h

theorem mem_nodesOf {x : String} {c : Crossrefs} {sk : List Skill} :
    x ∈ nodesOf c sk ↔ x ∈ collectNames c sk := by
  unfold nodesOf
  rw [mem_sortNames, List.mem_dedup]

theorem nodup_nodesOf (c : Crossrefs) (sk : List Skill) : (nodesOf c sk).Nodup :=
  nodup_sortNames (List.nodup_dedup _)

theorem sorted_nodesOf (c : Crossrefs) (sk : List Skill) :
    List.Sorted strLe (nodesOf c sk) :=
  sorted_sortNames _

/-- Two sorted duplicate-free name lists with the same members are equal. -/
theorem sorted_nodup_eq_of_mem_iff {l₁ l₂ : List String}
    (s₁ : List.Sorted strLe l₁) (s₂ : List.Sorted strLe l₂)
    (n₁ : l₁.Nodup) (n₂ : l₂.Nodup) (h : ∀ x, x ∈ l₁ ↔ x ∈ l₂) : l₁ = l₂ := by
  refine @List.eq_of_perm_of_sorted String strLe ⟨strLe_antisymm⟩ l₁ l₂ ?_ s₁ s₂
  refine List.perm_of_nodup_nodup_toFinset_eq n₁ n₂ ?_
  ext x
  simp only [List.mem_toFinset]
  exact h x

theorem mem_collectNames {x : String} {c : Crossrefs} {sk : List Skill} :
    x ∈ collectNames c sk ↔
      (∃ p ∈ c, x = p.1 ∨ ∃ r ∈ p.2, x = r.target) ∨ ∃ s ∈ sk, x = s.name := by
  unfold collectNames
  simp only [List.mem_append, List.mem_flatMap, List.mem_cons, List.mem_map]
  constructor
  · rintro (⟨p, hp, h | ⟨r, hr, rfl⟩⟩ | ⟨s, hs, rfl⟩)
    · exact Or.inl ⟨p, hp, Or.inl h⟩
    · exact Or.inl ⟨p, hp, Or.inr ⟨r, hr, rfl⟩⟩
    · exact Or.inr ⟨s, hs, rfl⟩
  · rintro (⟨p, hp, rfl | ⟨r, hr, rfl⟩⟩ | ⟨s, hs, rfl⟩)
    · exact Or.inl ⟨p, hp, Or.inl rfl⟩
    · exact Or.inl ⟨p, hp, Or.inr ⟨r, hr, rfl⟩⟩
    · exact Or.inr ⟨s, hs, rfl⟩

/-! ## Facts about single conditional edge insertion -/

theorem tryAddEdge_cases (es : List Edge) (c : Prop) [Decidable c] (e : Edge) :
    tryAddEdge es c e = es ∨
      (tryAddEdge es c e = es ++ [e] ∧ c ∧ pairOf e ∉ es.map pairOf) := by
  unfold tryAddEdge
  by_cases h1 : pairOf e ∈ es.map pairOf
  · simp [h1]
  · by_cases h2 : c
    · right; simp [h1, h2]
    · left; simp [h1, h2]

theorem pair_mem_tryAddEdge {c : Prop} [Decidable c] {es : List Edge} {e : Edge}
    (h : c) : pairOf e ∈ (tryAddEdge es c e).map pairOf := by
  unfold tryAddEdge
  by_cases h1 : pairOf e ∈ es.map pairOf
  · rw [if_pos h1]; exact h1
  · simp [h1, h]

theorem tryAddEdge_eq_self {c : Prop} [Decidable c] {es : List Edge} {e : Edge}
    (h : c → pairOf e ∈ es.map pairOf) : tryAddEdge es c e = es := by
  unfold tryAddEdge
  by_cases h1 : pairOf e ∈ es.map pairOf
  · simp [h1]
  · by_cases h2 : c
    · exact absurd (h h2) h1
    · simp [h1, h2]

theorem tryAddEdge_of_not_mem {c : Prop} [Decidable c] {es : List Edge} {e : Edge}
    (h1 : pairOf e ∉ es.map pairOf) (h2 : c) : tryAddEdge es c e = es ++ [e] := by
  unfold tryAddEdge
  simp [h1, h2]

theorem pairs_tryAddEdge_nodup {c : Prop} [Decidable c] {es : List Edge} {e : Edge}
    (h : (es.map pairOf).Nodup) : ((tryAddEdge es c e).map pairOf).Nodup := by
  rcases tryAddEdge_cases es c e with h1 | ⟨h1, _, hnm⟩ <;> rw [h1]
  · exact h
  · rw [List.map_append]
    simp only [List.map_cons, List.map_nil]
    rw [List.nodup_append]
    refine ⟨h, List.nodup_singleton _, ?_⟩
    intro a ha hb
    rw [List.mem_singleton] at hb
    subst hb
    exact hnm ha

/-! ## Generic facts about the edge-insertion folds

All edge-inserting loops of the builder have the shape
`foldl (fun es a => tryAddEdge es (C a) (E a)) es l`. -/

theorem foldlTryAdd_append {α : Type} (C : α → Prop) [DecidablePred C] (E : α → Edge)
    (l : List α) (es : List Edge) :
    ∃ more, l.foldl (fun es a => tryAddEdge es (C a) (E a)) es = es ++ more
      ∧ ∀ x ∈ more, ∃ a ∈ l, x = E a ∧ C a := by
  induction l generalizing es with
  | nil => exact ⟨[], by simp⟩
  | cons a l ih =>
    simp only [List.foldl_cons]
    rcases tryAddEdge_cases es (C a) (E a) with h | ⟨h, hc, _⟩
    · rw [h]
      obtain ⟨more, hm, hp⟩ := ih es
      exact ⟨more, hm, fun x hx => by
        obtain ⟨b, hb, he⟩ := hp x hx
        exact ⟨b, List.mem_cons_of_mem _ hb, he⟩⟩
    · rw [h]
      obtain ⟨more, hm, hp⟩ := ih (es ++ [E a])
      refine ⟨E a :: more, by rw [hm]; simp, ?_⟩
      intro x hx
      rcases List.mem_cons.mp hx with rfl | hx
      · exact ⟨a, List.mem_cons_self _ _, rfl, hc⟩
      · obtain ⟨b, hb, he⟩ := hp x hx
        exact ⟨b, List.mem_cons_of_mem _ hb, he⟩

theorem pairs_foldlTryAdd_nodup {α : Type} (C : α → Prop) [DecidablePred C] (E : α → Edge)
    (l : List α) (es : List Edge) (h : (es.map pairOf).Nodup) :
    ((l.foldl (fun es a => tryAddEdge es (C a) (E a)) es).map pairOf).Nodup := by
  induction l generalizing es with
  | nil => exact h
  | cons a l ih => exact ih _ (pairs_tryAddEdge_nodup h)

theorem pair_mem_foldlTryAdd {α : Type} (C : α → Prop) [DecidablePred C] (E : α → Edge)
    {l : List α} {a : α} (es : List Edge) (ha : a ∈ l) (hc : C a) :
    pairOf (E a) ∈ ((l.foldl (fun es a => tryAddEdge es (C a) (E a)) es).map pairOf) := by
  induction l generalizing es with
  | nil => cases ha
  | cons b l ih =>
    simp only [List.foldl_cons]
    rcases List.mem_cons.mp ha with rfl | ha
    · obtain ⟨more, hm, _⟩ := foldlTryAdd_append C E l (tryAddEdge es (C a) (E a))
      rw [hm, List.map_append]
      exact List.mem_append_left _ (pair_mem_tryAddEdge hc)
    · exact ih _ ha

theorem foldlTryAdd_eq_self {α : Type} (C : α → Prop) [DecidablePred C] (E : α → Edge)
    {l : List α} {es : List Edge}
    (h : ∀ a ∈ l, C a → pairOf (E a) ∈ es.map pairOf) :
    l.foldl (fun es a => tryAddEdge es (C a) (E a)) es = es := by
  induction l with
  | nil => rfl
  | cons a l ih =>
    simp only [List.foldl_cons]
    rw [tryAddEdge_eq_self (h a (List.mem_cons_self _ _))]
    exact ih (fun b hb => h b (List.mem_cons_of_mem _ hb))

theorem foldlTryAdd_total {α : Type} (C : α → Prop) [DecidablePred C] (E : α → Edge)
    {l : List α} {es : List Edge}
    (hnd : (es.map pairOf ++ l.map (fun a => pairOf (E a))).Nodup)
    (hc : ∀ a ∈ l, C a) :
    l.foldl (fun es a => tryAddEdge es (C a) (E a)) es = es ++ l.map E := by
  induction l generalizing es with
  | nil => simp
  | cons a l ih =>
    simp only [List.foldl_cons]
    have hnotmem : pairOf (E a) ∉ es.map pairOf := by
      rw [List.nodup_append] at hnd
      exact fun hx => (hnd.2.2 hx (by simp)).elim
    rw [tryAddEdge_of_not_mem hnotmem (hc a (List.mem_cons_self _ _))]
    have : ((es ++ [E a]).map pairOf ++ l.map (fun a => pairOf (E a))).Nodup := by
      rw [List.map_append]
      simpa [List.append_assoc] using hnd
    rw [ih this (fun b hb => hc b (List.mem_cons_of_mem _ hb))]
    simp

end AgentSkills

namespace AgentSkills

/-! ## Provenance of edges through each phase of the builder -/

theorem pairs_mono_of_eq_append {res es more : List Edge} (h : res = es ++ more)
    {p : String × String} (hp : p ∈ es.map pairOf) : p ∈ res.map pairOf := by
  subst h
  rw [List.map_append]
  exact List.mem_append_left _ hp

theorem addCrossrefEdges_append (nodes : List String) (es : List Edge) (source : String)
    (refs : List CrossRef) :
    ∃ more, addCrossrefEdges nodes es source refs = es ++ more
      ∧ ∀ x ∈ more, x.kind = .CrossRef ∧ x.source = source ∧ x.target ∈ nodes
          ∧ ∃ r ∈ refs, x.target = r.target := by
  obtain ⟨more, h1, h2⟩ := foldlTryAdd_append (fun r : CrossRef => r.target ∈ nodes)
    (fun r => { source := source, target := r.target, kind := .CrossRef }) refs es
  refine ⟨more, h1, ?_⟩
  intro x hx
  obtain ⟨r, hr, rfl, hc⟩ := h2 x hx
  exact ⟨rfl, rfl, hc, r, hr, rfl⟩

theorem addAfterEdges_append (nodes : List String) (skillName : String) (es : List Edge)
    (deps : List String) :
    ∃ more, addAfterEdges nodes skillName es deps = es ++ more
      ∧ ∀ x ∈ more, x.kind = .Pipeline ∧ x.source ∈ nodes ∧ x.target ∈ nodes
          ∧ x.source = skillName ∧ x.target ∈ deps := by
  obtain ⟨more, h1, h2⟩ := foldlTryAdd_append (fun d : String => skillName ∈ nodes ∧ d ∈ nodes)
    (fun d => { source := skillName, target := d, kind := .Pipeline }) deps es
  refine ⟨more, h1, ?_⟩
  intro x hx
  obtain ⟨d, hd, rfl, hc⟩ := h2 x hx
  exact ⟨rfl, hc.1, hc.2, rfl, hd⟩

theorem addBeforeEdges_append (nodes : List String) (skillName : String) (es : List Edge)
    (deps : List String) :
    ∃ more, addBeforeEdges nodes skillName es deps = es ++ more
      ∧ ∀ x ∈ more, x.kind = .Pipeline ∧ x.source ∈ nodes ∧ x.target ∈ nodes
          ∧ x.source ∈ deps ∧ x.target = skillName := by
  obtain ⟨more, h1, h2⟩ := foldlTryAdd_append (fun d : String => d ∈ nodes ∧ skillName ∈ nodes)
    (fun d => { source := d, target := skillName, kind := .Pipeline }) deps es
  refine ⟨more, h1, ?_⟩
  intro x hx
  obtain ⟨d, hd, rfl, hc⟩ := h2 x hx
  exact ⟨rfl, hc.1, hc.2, hd, rfl⟩

theorem addStageEdges_append (nodes : List String) (skillName : String) (es : List Edge)
    (st : PipelineStage) :
    ∃ more, addStageEdges nodes skillName es st = es ++ more
      ∧ ∀ x ∈ more, x.kind = .Pipeline ∧ x.source ∈ nodes ∧ x.target ∈ nodes
          ∧ ((x.source = skillName ∧ x.target ∈ st.after.getD [])
             ∨ (x.source ∈ st.before.getD [] ∧ x.target = skillName)) := by
  obtain ⟨m1, h1, p1⟩ := addAfterEdges_append nodes skillName es (st.after.getD [])
  obtain ⟨m2, h2, p2⟩ := addBeforeEdges_append nodes skillName
    (addAfterEdges nodes skillName es (st.after.getD [])) (st.before.getD [])
  refine ⟨m1 ++ m2, ?_, ?_⟩
  · unfold addStageEdges
    rw [h2, h1, List.append_assoc]
  · intro x hx
    rcases List.mem_append.mp hx with hx | hx
    · obtain ⟨hk, hsn, htn, hs, hd⟩ := p1 x hx
      exact ⟨hk, hsn, htn, Or.inl ⟨hs, hd⟩⟩
    · obtain ⟨hk, hsn, htn, hd, ht⟩ := p2 x hx
      exact ⟨hk, hsn, htn, Or.inr ⟨hd, ht⟩⟩

theorem foldlStages_append (nodes : List String) (skillName : String) :
    ∀ (sts : List PipelineStage) (es : List Edge),
    ∃ more, sts.foldl (fun es st => addStageEdges nodes skillName es st) es = es ++ more
      ∧ ∀ x ∈ more, x.kind = .Pipeline ∧ x.source ∈ nodes ∧ x.target ∈ nodes
          ∧ ∃ st ∈ sts, ((x.source = skillName ∧ x.target ∈ st.after.getD [])
             ∨ (x.source ∈ st.before.getD [] ∧ x.target = skillName))
  | [], es => ⟨[], by simp⟩
  | st :: sts, es => by
    simp only [List.foldl_cons]
    obtain ⟨m1, h1, p1⟩ := addStageEdges_append nodes skillName es st
    obtain ⟨m2, h2, p2⟩ := foldlStages_append nodes skillName sts (addStageEdges nodes skillName es st)
    refine ⟨m1 ++ m2, by rw [h2, h1, List.append_assoc], ?_⟩
    intro x hx
    rcases List.mem_append.mp hx with hx | hx
    · obtain ⟨hk, hsn, htn, hd⟩ := p1 x hx
      exact ⟨hk, hsn, htn, st, List.mem_cons_self _ _, hd⟩
    · obtain ⟨hk, hsn, htn, st', hst', hd⟩ := p2 x hx
      exact ⟨hk, hsn, htn, st', List.mem_cons_of_mem _ hst', hd⟩

theorem addSkillEdges_append (nodes : List String) (es : List Edge) (sk : Skill) :
    ∃ more, addSkillEdges nodes es sk = es ++ more
      ∧ ∀ x ∈ more, x.kind = .Pipeline ∧ x.source ∈ nodes ∧ x.target ∈ nodes
          ∧ ∃ st ∈ pipelineStages sk, ((x.source = sk.name ∧ x.target ∈ st.after.getD [])
             ∨ (x.source ∈ st.before.getD [] ∧ x.target = sk.name)) :=
  foldlStages_append nodes sk.name (pipelineStages sk) es

theorem skillsPhase_append (nodes : List String) :
    ∀ (sks : List Skill) (es : List Edge),
    ∃ more, skillsPhase nodes sks es = es ++ more
      ∧ ∀ x ∈ more, x.kind = .Pipeline ∧ x.source ∈ nodes ∧ x.target ∈ nodes
          ∧ ∃ s ∈ sks, ∃ st ∈ pipelineStages s,
              ((x.source = s.name ∧ x.target ∈ st.after.getD [])
               ∨ (x.source ∈ st.before.getD [] ∧ x.target = s.name))
  | [], es => ⟨[], by simp [skillsPhase]⟩
  | sk :: sks, es => by
    show ∃ more, skillsPhase nodes sks (addSkillEdges nodes es sk) = es ++ more ∧ _
    obtain ⟨m1, h1, p1⟩ := addSkillEdges_append nodes es sk
    obtain ⟨m2, h2, p2⟩ := skillsPhase_append nodes sks (addSkillEdges nodes es sk)
    refine ⟨m1 ++ m2, by rw [h2, h1, List.append_assoc], ?_⟩
    intro x hx
    rcases List.mem_append.mp hx with hx | hx
    · obtain ⟨hk, hsn, htn, st, hst, hd⟩ := p1 x hx
      exact ⟨hk, hsn, htn, sk, List.mem_cons_self _ _, st, hst, hd⟩
    · obtain ⟨hk, hsn, htn, s, hs, st, hst, hd⟩ := p2 x hx
      exact ⟨hk, hsn, htn, s, List.mem_cons_of_mem _ hs, st, hst, hd⟩

theorem foldlEntries_append (nodes : List String) :
    ∀ (c : Crossrefs) (es : List Edge),
    ∃ more, c.foldl (fun es p => addCrossrefEdges nodes es p.1 p.2) es = es ++ more
      ∧ ∀ x ∈ more, x.kind = .CrossRef ∧ x.target ∈ nodes
          ∧ ∃ p ∈ c, x.source = p.1 ∧ ∃ r ∈ p.2, x.target = r.target
  | [], es => ⟨[], by simp⟩
  | p :: c, es => by
    simp only [List.foldl_cons]
    obtain ⟨m1, h1, p1⟩ := addCrossrefEdges_append nodes es p.1 p.2
    obtain ⟨m2, h2, p2⟩ := foldlEntries_append nodes c (addCrossrefEdges nodes es p.1 p.2)
    refine ⟨m1 ++ m2, by rw [h2, h1, List.append_assoc], ?_⟩
    intro x hx
    rcases List.mem_append.mp hx with hx | hx
    · obtain ⟨hk, hs, htn, r, hr, ht⟩ := p1 x hx
      exact ⟨hk, htn, p, List.mem_cons_self _ _, hs, r, hr, ht⟩
    · obtain ⟨hk, htn, q, hq, hs, r, hr, ht⟩ := p2 x hx
      exact ⟨hk, htn, q, List.mem_cons_of_mem _ hq, hs, r, hr, ht⟩

theorem crossrefPhase_mem (nodes : List String) (c : Crossrefs) :
    ∀ e ∈ crossrefPhase nodes c,
      e.kind = .CrossRef ∧ e.target ∈ nodes
        ∧ ∃ p ∈ c, e.source = p.1 ∧ ∃ r ∈ p.2, e.target = r.target := by
  obtain ⟨more, h1, h2⟩ := foldlEntries_append nodes c []
  unfold crossrefPhase
  rw [h1]
  simpa using h2

theorem buildEdgeList_mem (nodes : List String) (c : Crossrefs) (sks : List Skill) :
    ∀ e ∈ buildEdgeList nodes c sks,
      (e.kind = .CrossRef ∧ e.target ∈ nodes
        ∧ ∃ p ∈ c, e.source = p.1 ∧ ∃ r ∈ p.2, e.target = r.target)
      ∨ (e.kind = .Pipeline ∧ e.source ∈ nodes ∧ e.target ∈ nodes
        ∧ ∃ s ∈ sks, ∃ st ∈ pipelineStages s,
            ((e.source = s.name ∧ e.target ∈ st.after.getD [])
             ∨ (e.source ∈ st.before.getD [] ∧ e.target = s.name))) := by
  intro e he
  obtain ⟨more, h1, h2⟩ := skillsPhase_append nodes sks (crossrefPhase nodes c)
  unfold buildEdgeList at he
  rw [h1] at he
  rcases List.mem_append.mp he with he | he
  · exact Or.inl (crossrefPhase_mem nodes c e he)
  · exact Or.inr (h2 e he)

/-! ## The per-pair dedup invariant -/

theorem pairs_addCrossrefEdges_nodup {nodes : List String} {es : List Edge}
    {source : String} {refs : List CrossRef} (h : (es.map pairOf).Nodup) :
    ((addCrossrefEdges nodes es source refs).map pairOf).Nodup :=
  pairs_foldlTryAdd_nodup _ _ refs es h

theorem pairs_addStageEdges_nodup {nodes : List String} {skillName : String} {es : List Edge}
    {st : PipelineStage} (h : (es.map pairOf).Nodup) :
    ((addStageEdges nodes skillName es st).map pairOf).Nodup := by
  unfold addStageEdges
  exact pairs_foldlTryAdd_nodup _ _ _ _ (pairs_foldlTryAdd_nodup _ _ _ _ h)

theorem pairs_addSkillEdges_nodup {nodes : List String} {es : List Edge} {sk : Skill}
    (h : (es.map pairOf).Nodup) :
    ((addSkillEdges nodes es sk).map pairOf).Nodup := by
  unfold addSkillEdges
  induction pipelineStages sk generalizing es with
  | nil => exact h
  | cons st sts ih => exact ih (pairs_addStageEdges_nodup h)

theorem pairs_skillsPhase_nodup {nodes : List String} {sks : List Skill} {es : List Edge}
    (h : (es.map pairOf).Nodup) :
    ((skillsPhase nodes sks es).map pairOf).Nodup := by
  unfold skillsPhase
  induction sks generalizing es with
  | nil => exact h
  | cons sk sks ih => exact ih (pairs_addSkillEdges_nodup h)

theorem pairs_crossrefPhase_nodup (nodes : List String) (c : Crossrefs) :
    ((crossrefPhase nodes c).map pairOf).Nodup := by
  unfold crossrefPhase
  have : (([] : List Edge).map pairOf).Nodup := by simp
  generalize ([] : List Edge) = es at this ⊢
  induction c generalizing es with
  | nil => exact this
  | cons p c ih => exact ih _ (pairs_addCrossrefEdges_nodup this)

theorem pairs_buildEdgeList_nodup (nodes : List String) (c : Crossrefs) (sks : List Skill) :
    ((buildEdgeList nodes c sks).map pairOf).Nodup :=
  pairs_skillsPhase_nodup (pairs_crossrefPhase_nodup nodes c)

end AgentSkills

namespace AgentSkills

/-! ## Monotonicity: pairs already present survive every later insertion -/

theorem pairs_mono_addCrossrefEdges {nodes : List String} {es : List Edge} {source : String}
    {refs : List CrossRef} {p : String × String} (hp : p ∈ es.map pairOf) :
    p ∈ (addCrossrefEdges nodes es source refs).map pairOf := by
  obtain ⟨more, h1, _⟩ := addCrossrefEdges_append nodes es source refs
  exact pairs_mono_of_eq_append h1 hp

theorem pairs_mono_addStageEdges {nodes : List String} {skillName : String} {es : List Edge}
    {st : PipelineStage} {p : String × String} (hp : p ∈ es.map pairOf) :
    p ∈ (addStageEdges nodes skillName es st).map pairOf := by
  obtain ⟨more, h1, _⟩ := addStageEdges_append nodes skillName es st
  exact pairs_mono_of_eq_append h1 hp

theorem pairs_mono_addSkillEdges {nodes : List String} {es : List Edge} {sk : Skill}
    {p : String × String} (hp : p ∈ es.map pairOf) :
    p ∈ (addSkillEdges nodes es sk).map pairOf := by
  obtain ⟨more, h1, _⟩ := addSkillEdges_append nodes es sk
  exact pairs_mono_of_eq_append h1 hp

theorem pairs_mono_skillsPhase {nodes : List String} {sks : List Skill} {es : List Edge}
    {p : String × String} (hp : p ∈ es.map pairOf) :
    p ∈ (skillsPhase nodes sks es).map pairOf := by
  obtain ⟨more, h1, _⟩ := skillsPhase_append nodes sks es
  exact pairs_mono_of_eq_append h1 hp

theorem pairs_mono_crossrefFold {nodes : List String} {c : Crossrefs} {es : List Edge}
    {p : String × String} (hp : p ∈ es.map pairOf) :
    p ∈ ((c.foldl (fun es q => addCrossrefEdges nodes es q.1 q.2) es).map pairOf) := by
  obtain ⟨more, h1, _⟩ := foldlEntries_append nodes c es
  exact pairs_mono_of_eq_append h1 hp

/-! ## Realisation: a processed declaration always leaves its pair in the graph -/

theorem crossref_pair_mem (nodes : List String) :
    ∀ (c : Crossrefs) (es : List Edge) {k : String} {refs : List CrossRef} {r : CrossRef},
      (k, refs) ∈ c → r ∈ refs → r.target ∈ nodes →
      (k, r.target) ∈ ((c.foldl (fun es q => addCrossrefEdges nodes es q.1 q.2) es).map pairOf)
  | [], _, _, _, _, hp, _, _ => absurd hp (List.not_mem_nil _)
  | q :: c, es, k, refs, r, hp, hr, ht => by
    simp only [List.foldl_cons]
    rcases List.mem_cons.mp hp with heq | hp
    · subst heq
      refine pairs_mono_crossrefFold ?_
      exact pair_mem_foldlTryAdd (fun r : CrossRef => r.target ∈ nodes)
        (fun r => { source := k, target := r.target, kind := .CrossRef }) es hr ht
    · exact crossref_pair_mem nodes c _ hp hr ht

theorem crossref_pair_mem_phase {nodes : List String} {c : Crossrefs} {k : String}
    {refs : List CrossRef} {r : CrossRef} (hp : (k, refs) ∈ c) (hr : r ∈ refs)
    (ht : r.target ∈ nodes) :
    (k, r.target) ∈ (crossrefPhase nodes c).map pairOf :=
  crossref_pair_mem nodes c [] hp hr ht

theorem pair_mem_addStageEdges_after {nodes : List String} {skillName : String}
    {es : List Edge} {st : PipelineStage} {d : String} (hd : d ∈ st.after.getD [])
    (h1 : skillName ∈ nodes) (h2 : d ∈ nodes) :
    (skillName, d) ∈ (addStageEdges nodes skillName es st).map pairOf := by
  unfold addStageEdges
  refine pairs_mono_of_eq_append (addBeforeEdges_append nodes skillName _ _).choose_spec.1 ?_
  exact pair_mem_foldlTryAdd (fun d : String => skillName ∈ nodes ∧ d ∈ nodes)
    (fun d => { source := skillName, target := d, kind := .Pipeline }) es hd ⟨h1, h2⟩

theorem pair_mem_addStageEdges_before {nodes : List String} {skillName : String}
    {es : List Edge} {st : PipelineStage} {d : String} (hd : d ∈ st.before.getD [])
    (h1 : d ∈ nodes) (h2 : skillName ∈ nodes) :
    (d, skillName) ∈ (addStageEdges nodes skillName es st).map pairOf := by
  unfold addStageEdges
  exact pair_mem_foldlTryAdd (fun d : String => d ∈ nodes ∧ skillName ∈ nodes)
    (fun d => { source := d, target := skillName, kind := .Pipeline }) _ hd ⟨h1, h2⟩

theorem pair_mem_stageFold {nodes : List String} {skillName : String}
    {p : String × String} :
    ∀ (sts : List PipelineStage) (es : List Edge) {st : PipelineStage}, st ∈ sts →
      (∀ es : List Edge, p ∈ (addStageEdges nodes skillName es st).map pairOf) →
      p ∈ ((sts.foldl (fun es st => addStageEdges nodes skillName es st) es).map pairOf)
  | [], _, _, hst, _ => absurd hst (List.not_mem_nil _)
  | st' :: sts, es, st, hst, hmem => by
    simp only [List.foldl_cons]
    rcases List.mem_cons.mp hst with heq | hst
    · subst heq
      obtain ⟨more, h1, _⟩ := foldlStages_append nodes skillName sts (addStageEdges nodes skillName es st)
      exact pairs_mono_of_eq_append h1 (hmem es)
    · exact pair_mem_stageFold sts _ hst hmem

theorem pair_mem_addSkillEdges_after {nodes : List String} {es : List Edge} {sk : Skill}
    {st : PipelineStage} {d : String} (hst : st ∈ pipelineStages sk)
    (hd : d ∈ st.after.getD []) (h1 : sk.name ∈ nodes) (h2 : d ∈ nodes) :
    (sk.name, d) ∈ (addSkillEdges nodes es sk).map pairOf :=
  pair_mem_stageFold (pipelineStages sk) es hst
    (fun es => @pair_mem_addStageEdges_after _ _ es _ _ hd h1 h2)

theorem pair_mem_addSkillEdges_before {nodes : List String} {es : List Edge} {sk : Skill}
    {st : PipelineStage} {d : String} (hst : st ∈ pipelineStages sk)
    (hd : d ∈ st.before.getD []) (h1 : d ∈ nodes) (h2 : sk.name ∈ nodes) :
    (d, sk.name) ∈ (addSkillEdges nodes es sk).map pairOf :=
  pair_mem_stageFold (pipelineStages sk) es hst
    (fun es => @pair_mem_addStageEdges_before _ _ es _ _ hd h1 h2)

theorem pair_mem_skillsPhase {nodes : List String} {p : String × String} :
    ∀ (sks : List Skill) (es : List Edge) {sk : Skill}, sk ∈ sks →
      (∀ es : List Edge, p ∈ (addSkillEdges nodes es sk).map pairOf) →
      p ∈ ((skillsPhase nodes sks es).map pairOf)
  | [], _, _, hsk, _ => absurd hsk (List.not_mem_nil _)
  | sk' :: sks, es, sk, hsk, hmem => by
    show p ∈ ((skillsPhase nodes sks (addSkillEdges nodes es sk')).map pairOf)
    rcases List.mem_cons.mp hsk with heq | hsk
    · subst heq
      exact pairs_mono_skillsPhase (hmem es)
    · exact pair_mem_skillsPhase sks _ hsk hmem

theorem after_pair_mem {nodes : List String} {sks : List Skill} {es : List Edge}
    {sk : Skill} {st : PipelineStage} {d : String} (hsk : sk ∈ sks)
    (hst : st ∈ pipelineStages sk) (hd : d ∈ st.after.getD [])
    (h1 : sk.name ∈ nodes) (h2 : d ∈ nodes) :
    (sk.name, d) ∈ (skillsPhase nodes sks es).map pairOf :=
  pair_mem_skillsPhase sks es hsk
    (fun es => @pair_mem_addSkillEdges_after _ es _ _ _ hst hd h1 h2)

theorem before_pair_mem {nodes : List String} {sks : List Skill} {es : List Edge}
    {sk : Skill} {st : PipelineStage} {d : String} (hsk : sk ∈ sks)
    (hst : st ∈ pipelineStages sk) (hd : d ∈ st.before.getD [])
    (h1 : d ∈ nodes) (h2 : sk.name ∈ nodes) :
    (d, sk.name) ∈ (skillsPhase nodes sks es).map pairOf :=
  pair_mem_skillsPhase sks es hsk
    (fun es => @pair_mem_addSkillEdges_before _ es _ _ _ hst hd h1 h2)

/-! ## Suppression: the pipeline phase adds nothing when its pairs are taken -/

theorem addAfterEdges_eq_self {nodes : List String} {skillName : String} {es : List Edge}
    {deps : List String}
    (h : ∀ d ∈ deps, skillName ∈ nodes → d ∈ nodes → (skillName, d) ∈ es.map pairOf) :
    addAfterEdges nodes skillName es deps = es :=
  foldlTryAdd_eq_self _ _ (fun d hd hc => h d hd hc.1 hc.2)

theorem addBeforeEdges_eq_self {nodes : List String} {skillName : String} {es : List Edge}
    {deps : List String}
    (h : ∀ d ∈ deps, d ∈ nodes → skillName ∈ nodes → (d, skillName) ∈ es.map pairOf) :
    addBeforeEdges nodes skillName es deps = es :=
  foldlTryAdd_eq_self _ _ (fun d hd hc => h d hd hc.1 hc.2)

theorem addStageEdges_eq_self {nodes : List String} {skillName : String} {es : List Edge}
    {st : PipelineStage}
    (h1 : ∀ d ∈ st.after.getD [], skillName ∈ nodes → d ∈ nodes → (skillName, d) ∈ es.map pairOf)
    (h2 : ∀ d ∈ st.before.getD [], d ∈ nodes → skillName ∈ nodes → (d, skillName) ∈ es.map pairOf) :
    addStageEdges nodes skillName es st = es := by
  unfold addStageEdges
  rw [addAfterEdges_eq_self h1, addBeforeEdges_eq_self h2]

theorem stageFold_eq_self {nodes : List String} {skillName : String} {es : List Edge} :
    ∀ (sts : List PipelineStage),
      (∀ st ∈ sts,
          (∀ d ∈ st.after.getD [], skillName ∈ nodes → d ∈ nodes → (skillName, d) ∈ es.map pairOf)
        ∧ (∀ d ∈ st.before.getD [], d ∈ nodes → skillName ∈ nodes → (d, skillName) ∈ es.map pairOf)) →
      sts.foldl (fun es st => addStageEdges nodes skillName es st) es = es
  | [], _ => rfl
  | st :: sts, h => by
    simp only [List.foldl_cons]
    rw [addStageEdges_eq_self (h st (List.mem_cons_self _ _)).1 (h st (List.mem_cons_self _ _)).2]
    exact stageFold_eq_self sts (fun st' hst' => h st' (List.mem_cons_of_mem _ hst'))

theorem addSkillEdges_eq_self {nodes : List String} {es : List Edge} {sk : Skill}
    (h : ∀ st ∈ pipelineStages sk,
        (∀ d ∈ st.after.getD [], sk.name ∈ nodes → d ∈ nodes → (sk.name, d) ∈ es.map pairOf)
      ∧ (∀ d ∈ st.before.getD [], d ∈ nodes → sk.name ∈ nodes → (d, sk.name) ∈ es.map pairOf)) :
    addSkillEdges nodes es sk = es :=
  stageFold_eq_self (pipelineStages sk) h

theorem skillsPhase_eq_self {nodes : List String} {sks : List Skill} {es : List Edge}
    (h : ∀ s ∈ sks, ∀ st ∈ pipelineStages s,
        (∀ d ∈ st.after.getD [], s.name ∈ nodes → d ∈ nodes → (s.name, d) ∈ es.map pairOf)
      ∧ (∀ d ∈ st.before.getD [], d ∈ nodes → s.name ∈ nodes → (d, s.name) ∈ es.map pairOf)) :
    skillsPhase nodes sks es = es := by
  unfold skillsPhase
  induction sks with
  | nil => rfl
  | cons sk sks ih =>
    simp only [List.foldl_cons]
    rw [addSkillEdges_eq_self (h sk (List.mem_cons_self _ _))]
    exact ih (fun s hs => h s (List.mem_cons_of_mem _ hs))

/-! ## Totality: with globally distinct pairs and known targets, the
crossref phase adds exactly the listed edges -/

theorem addCrossrefEdges_total {nodes : List String} {es : List Edge} {source : String}
    {refs : List CrossRef}
    (hnd : (es.map pairOf
      ++ refs.map (fun r => pairOf { source := source, target := r.target, kind := .CrossRef })).Nodup)
    (hc : ∀ r ∈ refs, r.target ∈ nodes) :
    addCrossrefEdges nodes es source refs
      = es ++ refs.map (fun r => { source := source, target := r.target, kind := .CrossRef }) :=
  foldlTryAdd_total _ _ hnd hc

theorem crossrefFold_total (nodes : List String) :
    ∀ (c : Crossrefs) (es : List Edge),
      ((es ++ listedEdges c).map pairOf).Nodup →
      (∀ p ∈ c, ∀ r ∈ p.2, r.target ∈ nodes) →
      c.foldl (fun es q => addCrossrefEdges nodes es q.1 q.2) es = es ++ listedEdges c
  | [], es, _, _ => by simp [listedEdges]
  | q :: c, es, hnd, ht => by
    simp only [List.foldl_cons]
    have hsplit : listedEdges (q :: c)
        = q.2.map (fun r => { source := q.1, target := r.target, kind := .CrossRef })
          ++ listedEdges c := by
      simp [listedEdges]
    have hnd' : ((es ++ q.2.map (fun r =>
        ({ source := q.1, target := r.target, kind := .CrossRef } : Edge))).map pairOf).Nodup := by
      refine List.Nodup.sublist (List.Sublist.map pairOf ?_) hnd
      rw [hsplit, ← List.append_assoc]
      exact List.sublist_append_left _ _
    have hstep : addCrossrefEdges nodes es q.1 q.2
        = es ++ q.2.map (fun r => { source := q.1, target := r.target, kind := .CrossRef }) := by
      refine addCrossrefEdges_total ?_ (fun r hr => ht q (List.mem_cons_self _ _) r hr)
      rw [List.map_append, List.map_map] at hnd'
      simpa [Function.comp] using hnd'
    rw [hstep]
    have hrec := crossrefFold_total nodes c
      (es ++ q.2.map (fun r => { source := q.1, target := r.target, kind := .CrossRef }))
      (by rw [List.append_assoc, ← hsplit]; exact hnd)
      (fun p hp r hr => ht p (List.mem_cons_of_mem _ hp) r hr)
    rw [hrec, hsplit, List.append_assoc]

theorem crossrefPhase_eq_listedEdges {nodes : List String} {c : Crossrefs}
    (hnd : ((listedEdges c).map pairOf).Nodup)
    (ht : ∀ p ∈ c, ∀ r ∈ p.2, r.target ∈ nodes) :
    crossrefPhase nodes c = listedEdges c := by
  unfold crossrefPhase
  rw [crossrefFold_total nodes c [] (by simpa using hnd) ht]
  simp

end AgentSkills

namespace AgentSkills

/-! ## Node membership facts for the built graph -/

theorem skillName_mem_nodes {c : Crossrefs} {sk : List Skill} {s : Skill} (hs : s ∈ sk) :
    s.name ∈ nodesOf c sk :=
  mem_nodesOf.mpr (mem_collectNames.mpr (Or.inr ⟨s, hs, rfl⟩))

theorem key_mem_nodes {c : Crossrefs} {sk : List Skill} {p : String × List CrossRef}
    (hp : p ∈ c) : p.1 ∈ nodesOf c sk :=
  mem_nodesOf.mpr (mem_collectNames.mpr (Or.inl ⟨p, hp, Or.inl rfl⟩))

theorem target_mem_nodes {c : Crossrefs} {sk : List Skill} {p : String × List CrossRef}
    {r : CrossRef} (hp : p ∈ c) (hr : r ∈ p.2) : r.target ∈ nodesOf c sk :=
  mem_nodesOf.mpr (mem_collectNames.mpr (Or.inl ⟨p, hp, Or.inr ⟨r, hr, rfl⟩⟩))

theorem from_skills_nodes (c : Crossrefs) (sk : List Skill) :
    (SkillGraph.from_skills c sk).nodes = nodesOf c sk := rfl

theorem from_skills_edges (c : Crossrefs) (sk : List Skill) :
    (SkillGraph.from_skills c sk).edges = buildEdgeList (nodesOf c sk) c sk := rfl

theorem from_skills_roots (c : Crossrefs) (sk : List Skill) :
    (SkillGraph.from_skills c sk).roots
      = find_roots (nodesOf c sk) (buildEdgeList (nodesOf c sk) c sk) := rfl

theorem from_skills_leaves (c : Crossrefs) (sk : List Skill) :
    (SkillGraph.from_skills c sk).leaves
      = find_leaves (nodesOf c sk) (buildEdgeList (nodesOf c sk) c sk) := rfl

theorem from_skills_bridges (c : Crossrefs) (sk : List Skill) :
    (SkillGraph.from_skills c sk).bridges
      = find_bridges (nodesOf c sk) (buildEdgeList (nodesOf c sk) c sk) := rfl

/-- Every edge of the built graph has both endpoints among the nodes. -/
theorem edge_endpoints_mem {c : Crossrefs} {sk : List Skill} {e : Edge}
    (he : e ∈ (SkillGraph.from_skills c sk).edges) :
    e.source ∈ nodesOf c sk ∧ e.target ∈ nodesOf c sk := by
  rw [from_skills_edges] at he
  rcases buildEdgeList_mem _ c sk e he with ⟨_, ht, p, hp, hs, _⟩ | ⟨_, hs, ht, _⟩
  · exact ⟨hs ▸ key_mem_nodes hp, ht⟩
  · exact ⟨hs, ht⟩

theorem pairs_graph_nodup (c : Crossrefs) (sk : List Skill) :
    (((SkillGraph.from_skills c sk).edges).map pairOf).Nodup := by
  rw [from_skills_edges]
  exact pairs_buildEdgeList_nodup _ c sk

/-! ## Degree and analyzer membership facts -/

theorem inDegree_eq_zero {edges : List Edge} {n : String}
    (h : ∀ e ∈ edges, e.target ≠ n) : inDegree edges n = 0 := by
  unfold inDegree
  rw [List.length_eq_zero, List.filter_eq_nil_iff]
  intro e he
  simpa using h e he

theorem outDegree_eq_zero {edges : List Edge} {n : String}
    (h : ∀ e ∈ edges, e.source ≠ n) : outDegree edges n = 0 := by
  unfold outDegree
  rw [List.length_eq_zero, List.filter_eq_nil_iff]
  intro e he
  simpa using h e he

theorem mem_find_roots {nodes : List String} {edges : List Edge} {n : String} :
    n ∈ find_roots nodes edges ↔ n ∈ nodes ∧ inDegree edges n = 0 := by
  unfold find_roots
  rw [mem_sortNames, List.mem_filter]
  simp

theorem mem_find_leaves {nodes : List String} {edges : List Edge} {n : String} :
    n ∈ find_leaves nodes edges ↔ n ∈ nodes ∧ outDegree edges n = 0 := by
  unfold find_leaves
  rw [mem_sortNames, List.mem_filter]
  simp

theorem mem_find_bridges {nodes : List String} {edges : List Edge} {n : String} :
    n ∈ find_bridges nodes edges ↔ n ∈ nodes ∧ 0 < inDegree edges n ∧ 0 < outDegree edges n := by
  unfold find_bridges
  rw [mem_sortNames, List.mem_filter]
  simp

/-! ## The rebuilt crossref input of the subgraph extractor -/

theorem rebuild_entry_exists {g : SkillGraph} {keep : List String} {e : Edge}
    (he : e ∈ g.edges) (hn : e.source ∈ g.nodes) (hs : e.source ∈ keep)
    (ht : e.target ∈ keep) :
    ∃ refs, (e.source, refs) ∈ SkillGraph.rebuildCrossrefs g keep
      ∧ SkillGraph.degenerateRef e.target ∈ refs := by
  refine ⟨(g.edges.filter (fun e' => e'.source = e.source ∧ e'.target ∈ keep)).map
    (fun e' => SkillGraph.degenerateRef e'.target), ?_, ?_⟩
  · rw [SkillGraph.rebuildCrossrefs, List.mem_filterMap]
    refine ⟨e.source, hn, ?_⟩
    rw [if_pos hs]
    have hne : (g.edges.filter (fun e' => e'.source = e.source ∧ e'.target ∈ keep)).map
        (fun e' => SkillGraph.degenerateRef e'.target) ≠ [] := by
      apply List.ne_nil_of_mem (a := SkillGraph.degenerateRef e.target)
      exact List.mem_map_of_mem _ (List.mem_filter.mpr ⟨he, by simp [ht]⟩)
    simp only [if_neg hne]
  · exact List.mem_map_of_mem _ (List.mem_filter.mpr ⟨he, by simp [ht]⟩)

theorem rebuild_entry_mem {g : SkillGraph} {keep : List String}
    {q : String × List CrossRef} (hq : q ∈ SkillGraph.rebuildCrossrefs g keep) :
    q.1 ∈ g.nodes ∧ q.1 ∈ keep
      ∧ ∀ r ∈ q.2, ∃ e ∈ g.edges, e.source = q.1 ∧ e.target ∈ keep
          ∧ r = SkillGraph.degenerateRef e.target := by
  rw [SkillGraph.rebuildCrossrefs, List.mem_filterMap] at hq
  obtain ⟨n, hn, hf⟩ := hq
  by_cases h1 : n ∈ keep
  · rw [if_pos h1] at hf
    by_cases h2 : (g.edges.filter (fun e => e.source = n ∧ e.target ∈ keep)).map
        (fun e => SkillGraph.degenerateRef e.target) = []
    · rw [if_pos h2] at hf
      cases hf
    · rw [if_neg h2] at hf
      cases hf
      refine ⟨hn, h1, ?_⟩
      intro r hr
      rw [List.mem_map] at hr
      obtain ⟨e, he, rfl⟩ := hr
      rw [List.mem_filter] at he
      have hcond := he.2
      simp only [decide_eq_true_eq] at hcond
      exact ⟨e, he.1, hcond.1, hcond.2, rfl⟩
  · rw [if_neg h1] at hf
    cases hf

end AgentSkills

namespace AgentSkills

/-! ## Grouping the edge list by source node -/

theorem flatMap_congr {α β : Type} {l : List α} {f g : α → List β}
    (h : ∀ a ∈ l, f a = g a) : l.flatMap f = l.flatMap g := by
  induction l with
  | nil => rfl
  | cons a l ih =>
    simp only [List.flatMap_cons]
    rw [h a (List.mem_cons_self _ _), ih (fun b hb => h b (List.mem_cons_of_mem _ hb))]

/-- Grouping a list of edges by source over a duplicate-free list of names
covering every source is a permutation of the list. -/
theorem bind_filter_perm :
    ∀ (ns : List String) (es : List Edge), ns.Nodup → (∀ e ∈ es, e.source ∈ ns) →
      List.Perm (ns.flatMap (fun n => es.filter (fun e => e.source = n))) es
  | [], es, _, hsrc => by
    have hnil : es = [] :=
      List.eq_nil_iff_forall_not_mem.mpr (fun e he => by simpa using hsrc e he)
    simp [hnil]
  | n :: ns, es, hnd, hsrc => by
    simp only [List.flatMap_cons]
    have hn'ne : ∀ n' ∈ ns, ¬ n' = n :=
      fun n' hn' hh => (List.nodup_cons.mp hnd).1 (hh ▸ hn')
    have hsub : ∀ n' ∈ ns, es.filter (fun e => e.source = n')
        = (es.filter (fun e => ¬ e.source = n)).filter (fun e => e.source = n') := by
      intro n' hn'
      rw [List.filter_filter]
      refine List.filter_congr ?_
      intro e _
      by_cases h : e.source = n'
      · simp [h, hn'ne n' hn']
      · simp [h]
    rw [flatMap_congr hsub]
    have hsrc' : ∀ e ∈ es.filter (fun e => ¬ e.source = n), e.source ∈ ns := by
      intro e he
      rw [List.mem_filter] at he
      have h2 : ¬ e.source = n := by simpa using he.2
      rcases List.mem_cons.mp (hsrc e he.1) with h | h
      · exact absurd h h2
      · exact h
    have ih := bind_filter_perm ns (es.filter (fun e => ¬ e.source = n))
      (List.nodup_cons.mp hnd).2 hsrc'
    refine (List.Perm.append_left _ ih).trans ?_
    have hneg : es.filter (fun e => ¬ e.source = n)
        = es.filter (fun x => !(decide (x.source = n))) := by
      refine List.filter_congr ?_
      intro e _
      simp [decide_not]
    rw [hneg]
    exact List.filter_append_perm _ es

/-! ## The listed edges of the rebuilt crossref input -/

theorem listedEdges_rebuild_aux (edges : List Edge) (keep : List String) :
    ∀ ns : List String,
      listedEdges (ns.filterMap (fun n =>
        if n ∈ keep then
          let refs := (edges.filter (fun e => e.source = n ∧ e.target ∈ keep)).map
            (fun e => SkillGraph.degenerateRef e.target)
          if refs = [] then none else some (n, refs)
        else none))
      = ns.flatMap (fun n =>
          if n ∈ keep then
            (edges.filter (fun e => e.source = n ∧ e.target ∈ keep)).map
              (fun e => { source := n, target := e.target, kind := EdgeKind.CrossRef })
          else [])
  | [] => rfl
  | n :: ns => by
    set F : String → Option (String × List CrossRef) := fun m =>
      if m ∈ keep then
        let refs := (edges.filter (fun e => e.source = m ∧ e.target ∈ keep)).map
          (fun e => SkillGraph.degenerateRef e.target)
        if refs = [] then none else some (m, refs)
      else none with hF
    simp only [List.flatMap_cons]
    by_cases h1 : n ∈ keep
    · by_cases h2 : (edges.filter (fun e => e.source = n ∧ e.target ∈ keep)).map
          (fun e => SkillGraph.degenerateRef e.target) = []
      · have hf : F n = none := by
          simp only [hF]
          rw [if_pos h1]
          exact if_pos h2
        rw [List.filterMap_cons_none hf]
        have hfil : edges.filter (fun e => e.source = n ∧ e.target ∈ keep) = [] :=
          List.map_eq_nil_iff.mp h2
        rw [if_pos h1, hfil]
        simp only [List.map_nil, List.nil_append]
        exact listedEdges_rebuild_aux edges keep ns
      · have hf : F n = some (n, (edges.filter (fun e => e.source = n ∧ e.target ∈ keep)).map
            (fun e => SkillGraph.degenerateRef e.target)) := by
          simp only [hF]
          rw [if_pos h1]
          exact if_neg h2
        rw [List.filterMap_cons_some hf]
        show ((edges.filter (fun e => e.source = n ∧ e.target ∈ keep)).map
            (fun e => SkillGraph.degenerateRef e.target)).map
              (fun r => { source := n, target := r.target, kind := EdgeKind.CrossRef })
          ++ listedEdges (List.filterMap F ns) = _
        rw [List.map_map, if_pos h1]
        refine congrArg₂ _ ?_ (listedEdges_rebuild_aux edges keep ns)
        refine List.map_congr_left ?_
        intro e _
        rfl
    · have hf : F n = none := by
        simp only [hF]
        exact if_neg h1
      rw [List.filterMap_cons_none hf, if_neg h1, List.nil_append]
      exact listedEdges_rebuild_aux edges keep ns

theorem listedEdges_rebuild_of_targets {g : SkillGraph}
    (ht : ∀ e ∈ g.edges, e.target ∈ g.nodes) :
    listedEdges (SkillGraph.rebuildCrossrefs g g.nodes)
      = (g.nodes.flatMap (fun n => g.edges.filter (fun e => e.source = n))).map reCross := by
  unfold SkillGraph.rebuildCrossrefs
  rw [listedEdges_rebuild_aux g.edges g.nodes g.nodes, List.map_flatMap]
  refine flatMap_congr ?_
  intro n hn
  rw [if_pos hn]
  have hfil : g.edges.filter (fun e => e.source = n ∧ e.target ∈ g.nodes)
      = g.edges.filter (fun e => e.source = n) := by
    refine List.filter_congr ?_
    intro e he
    simp [ht e he]
  rw [hfil]
  refine List.map_congr_left ?_
  intro e he
  rw [List.mem_filter] at he
  have hs : e.source = n := by simpa using he.2
  simp [reCross, hs]

end AgentSkills

namespace AgentSkills

/-! ## The full-keep filter round-trip -/

theorem filter_skills_eq (c : Crossrefs) (sk : List Skill) :
    sk.filter (fun s => s.name ∈ (SkillGraph.from_skills c sk).nodes) = sk := by
  refine List.filter_eq_self.mpr ?_
  intro s hs
  simp only [decide_eq_true_eq]
  exact skillName_mem_nodes hs

theorem rebuild_targets_keep {g : SkillGraph} {keep : List String} :
    ∀ q ∈ SkillGraph.rebuildCrossrefs g keep, ∀ r ∈ q.2, r.target ∈ keep := by
  intro q hq r hr
  obtain ⟨_, _, hrefs⟩ := rebuild_entry_mem hq
  obtain ⟨e, _, _, htk, rfl⟩ := hrefs r hr
  exact htk

theorem rebuild_pairs_perm (c : Crossrefs) (sk : List Skill) :
    List.Perm
      (listedEdges (SkillGraph.rebuildCrossrefs (SkillGraph.from_skills c sk)
        (SkillGraph.from_skills c sk).nodes))
      ((SkillGraph.from_skills c sk).edges.map reCross) := by
  rw [listedEdges_rebuild_of_targets (fun e he => (edge_endpoints_mem he).2)]
  refine List.Perm.map reCross ?_
  refine bind_filter_perm _ _ ?_ ?_
  · exact nodup_nodesOf c sk
  · exact fun e he => (edge_endpoints_mem he).1

theorem rebuild_listed_length (c : Crossrefs) (sk : List Skill) :
    (listedEdges (SkillGraph.rebuildCrossrefs (SkillGraph.from_skills c sk)
      (SkillGraph.from_skills c sk).nodes)).length
      = (SkillGraph.from_skills c sk).edges.length := by
  rw [(rebuild_pairs_perm c sk).length_eq, List.length_map]

theorem rebuild_listed_pairs_perm (c : Crossrefs) (sk : List Skill) :
    List.Perm
      ((listedEdges (SkillGraph.rebuildCrossrefs (SkillGraph.from_skills c sk)
        (SkillGraph.from_skills c sk).nodes)).map pairOf)
      ((SkillGraph.from_skills c sk).edges.map pairOf) := by
  have h := (rebuild_pairs_perm c sk).map pairOf
  rw [List.map_map] at h
  have hfun : pairOf ∘ reCross = pairOf := by
    funext e
    rfl
  rwa [hfun] at h

theorem rebuild_listed_pairs_nodup (c : Crossrefs) (sk : List Skill) :
    ((listedEdges (SkillGraph.rebuildCrossrefs (SkillGraph.from_skills c sk)
      (SkillGraph.from_skills c sk).nodes)).map pairOf).Nodup :=
  ((rebuild_listed_pairs_perm c sk).nodup_iff).mpr (pairs_graph_nodup c sk)

theorem rebuild_collect_sub (c : Crossrefs) (sk : List Skill) :
    ∀ x ∈ collectNames (SkillGraph.rebuildCrossrefs (SkillGraph.from_skills c sk)
        (SkillGraph.from_skills c sk).nodes) sk,
      x ∈ (SkillGraph.from_skills c sk).nodes := by
  intro x hx
  rcases mem_collectNames.mp hx with ⟨q, hq, hcase⟩ | ⟨s, hs, rfl⟩
  · obtain ⟨hq1, hq2, hrefs⟩ := rebuild_entry_mem hq
    rcases hcase with rfl | ⟨r, hr, rfl⟩
    · exact hq1
    · obtain ⟨e, _, _, htk, rfl⟩ := hrefs r hr
      exact htk
  · exact skillName_mem_nodes hs

theorem rebuild_collect_sup (c : Crossrefs) (sk : List Skill)
    (H : ∀ p ∈ c, p.2 ≠ ([] : List CrossRef)) :
    ∀ x ∈ (SkillGraph.from_skills c sk).nodes,
      x ∈ collectNames (SkillGraph.rebuildCrossrefs (SkillGraph.from_skills c sk)
        (SkillGraph.from_skills c sk).nodes) sk := by
  intro x hx
  rcases mem_collectNames.mp (mem_nodesOf.mp hx) with ⟨q, hq, hcase⟩ | ⟨s, hs, rfl⟩
  · -- x is a crossref key or a crossref target: it is an endpoint of an edge of
    -- the built graph, whose rebuilt entry lists it again
    rcases hcase with rfl | ⟨r, hr, rfl⟩
    · obtain ⟨r, hr⟩ := List.exists_mem_of_ne_nil q.2 (H q hq)
      have htn : r.target ∈ nodesOf c sk := target_mem_nodes hq hr
      have hpair : (q.1, r.target) ∈ ((SkillGraph.from_skills c sk).edges).map pairOf := by
        rw [from_skills_edges]
        exact pairs_mono_skillsPhase (crossref_pair_mem_phase hq hr htn)
      obtain ⟨e, he, hpe⟩ := List.mem_map.mp hpair
      have hsrc : e.source = q.1 := congrArg Prod.fst hpe
      obtain ⟨refs, hentry, _⟩ := rebuild_entry_exists he (edge_endpoints_mem he).1
        (edge_endpoints_mem he).1 (edge_endpoints_mem he).2
      refine mem_collectNames.mpr (Or.inl ⟨(e.source, refs), hentry, Or.inl hsrc.symm⟩)
    · have htn : r.target ∈ nodesOf c sk := target_mem_nodes hq hr
      have hpair : (q.1, r.target) ∈ ((SkillGraph.from_skills c sk).edges).map pairOf := by
        rw [from_skills_edges]
        exact pairs_mono_skillsPhase (crossref_pair_mem_phase hq hr htn)
      obtain ⟨e, he, hpe⟩ := List.mem_map.mp hpair
      have htgt : e.target = r.target := congrArg Prod.snd hpe
      obtain ⟨refs, hentry, hmr⟩ := rebuild_entry_exists he (edge_endpoints_mem he).1
        (edge_endpoints_mem he).1 (edge_endpoints_mem he).2
      refine mem_collectNames.mpr (Or.inl ⟨(e.source, refs), hentry,
        Or.inr ⟨SkillGraph.degenerateRef e.target, hmr, htgt.symm⟩⟩)
  · exact mem_collectNames.mpr (Or.inr ⟨s, hs, rfl⟩)

theorem rebuild_nodesOf_eq (c : Crossrefs) (sk : List Skill)
    (H : ∀ p ∈ c, p.2 ≠ ([] : List CrossRef)) :
    nodesOf (SkillGraph.rebuildCrossrefs (SkillGraph.from_skills c sk)
      (SkillGraph.from_skills c sk).nodes) sk
      = (SkillGraph.from_skills c sk).nodes := by
  refine sorted_nodup_eq_of_mem_iff (sorted_nodesOf _ _) (sorted_nodesOf c sk)
    (nodup_nodesOf _ _) (nodup_nodesOf c sk) ?_
  intro x
  constructor
  · intro hx
    exact rebuild_collect_sub c sk x (mem_nodesOf.mp hx)
  · intro hx
    exact mem_nodesOf.mpr (rebuild_collect_sup c sk H x hx)

end AgentSkills

namespace AgentSkills

theorem filter_full_counts (c : Crossrefs) (sk : List Skill)
    (H : ∀ p ∈ c, p.2 ≠ ([] : List CrossRef)) :
    ((SkillGraph.from_skills c sk).filter_to_skills (SkillGraph.from_skills c sk).nodes sk).nodes
        = (SkillGraph.from_skills c sk).nodes
    ∧ ((SkillGraph.from_skills c sk).filter_to_skills
        (SkillGraph.from_skills c sk).nodes sk).edges.length
        = (SkillGraph.from_skills c sk).edges.length := by
  have hcond : ∀ s ∈ sk, ∀ st ∈ pipelineStages s,
      (∀ d ∈ st.after.getD [], s.name ∈ (SkillGraph.from_skills c sk).nodes →
          d ∈ (SkillGraph.from_skills c sk).nodes →
          (s.name, d) ∈ (listedEdges (SkillGraph.rebuildCrossrefs (SkillGraph.from_skills c sk)
            (SkillGraph.from_skills c sk).nodes)).map pairOf)
    ∧ (∀ d ∈ st.before.getD [], d ∈ (SkillGraph.from_skills c sk).nodes →
          s.name ∈ (SkillGraph.from_skills c sk).nodes →
          (d, s.name) ∈ (listedEdges (SkillGraph.rebuildCrossrefs (SkillGraph.from_skills c sk)
            (SkillGraph.from_skills c sk).nodes)).map pairOf) := by
    intro s hs st hst
    constructor
    · intro d hd h1 h2
      refine (rebuild_listed_pairs_perm c sk).mem_iff.mpr ?_
      rw [from_skills_edges]
      exact after_pair_mem hs hst hd h1 h2
    · intro d hd h1 h2
      refine (rebuild_listed_pairs_perm c sk).mem_iff.mpr ?_
      rw [from_skills_edges]
      exact before_pair_mem hs hst hd h1 h2
  constructor
  · unfold SkillGraph.filter_to_skills
    rw [filter_skills_eq c sk, from_skills_nodes]
    exact rebuild_nodesOf_eq c sk H
  · unfold SkillGraph.filter_to_skills
    rw [filter_skills_eq c sk, from_skills_edges, rebuild_nodesOf_eq c sk H]
    unfold buildEdgeList
    rw [crossrefPhase_eq_listedEdges (rebuild_listed_pairs_nodup c sk) rebuild_targets_keep]
    rw [skillsPhase_eq_self hcond]
    exact rebuild_listed_length c sk

/-- Every edge of a graph produced by the subgraph filter on a built graph,
with the same skill list, has kind `CrossRef`: the filter re-expresses all
retained edges as cross-references and the builder's pipeline re-insertion
is suppressed by the per-pair dedup. -/
theorem filter_to_skills_edges_crossref (c : Crossrefs) (sk : List Skill)
    (keep : List String) :
    ∀ e ∈ ((SkillGraph.from_skills c sk).filter_to_skills keep sk).edges,
      e.kind = EdgeKind.CrossRef := by
  intro e he
  have hK'sub : ∀ x ∈ nodesOf (SkillGraph.rebuildCrossrefs (SkillGraph.from_skills c sk) keep)
      (sk.filter (fun s => s.name ∈ keep)),
      x ∈ keep ∧ x ∈ (SkillGraph.from_skills c sk).nodes := by
    intro x hx
    rcases mem_collectNames.mp (mem_nodesOf.mp hx) with ⟨q, hq, hcase⟩ | ⟨s, hs, rfl⟩
    · obtain ⟨hq1, hq2, hrefs⟩ := rebuild_entry_mem hq
      rcases hcase with rfl | ⟨r, hr, rfl⟩
      · exact ⟨hq2, hq1⟩
      · obtain ⟨e', he', _, htk, rfl⟩ := hrefs r hr
        exact ⟨htk, (edge_endpoints_mem he').2⟩
    · have hs' := List.mem_filter.mp hs
      refine ⟨by simpa using hs'.2, skillName_mem_nodes hs'.1⟩
  have hcond : ∀ s ∈ sk.filter (fun s => s.name ∈ keep), ∀ st ∈ pipelineStages s,
      (∀ d ∈ st.after.getD [],
          s.name ∈ nodesOf (SkillGraph.rebuildCrossrefs (SkillGraph.from_skills c sk) keep)
            (sk.filter (fun s => s.name ∈ keep)) →
          d ∈ nodesOf (SkillGraph.rebuildCrossrefs (SkillGraph.from_skills c sk) keep)
            (sk.filter (fun s => s.name ∈ keep)) →
          (s.name, d) ∈ (crossrefPhase (nodesOf (SkillGraph.rebuildCrossrefs
            (SkillGraph.from_skills c sk) keep) (sk.filter (fun s => s.name ∈ keep)))
            (SkillGraph.rebuildCrossrefs (SkillGraph.from_skills c sk) keep)).map pairOf)
    ∧ (∀ d ∈ st.before.getD [],
          d ∈ nodesOf (SkillGraph.rebuildCrossrefs (SkillGraph.from_skills c sk) keep)
            (sk.filter (fun s => s.name ∈ keep)) →
          s.name ∈ nodesOf (SkillGraph.rebuildCrossrefs (SkillGraph.from_skills c sk) keep)
            (sk.filter (fun s => s.name ∈ keep)) →
          (d, s.name) ∈ (crossrefPhase (nodesOf (SkillGraph.rebuildCrossrefs
            (SkillGraph.from_skills c sk) keep) (sk.filter (fun s => s.name ∈ keep)))
            (SkillGraph.rebuildCrossrefs (SkillGraph.from_skills c sk) keep)).map pairOf) := by
    intro s hs st hst
    have hsk0 : s ∈ sk := List.mem_of_mem_filter hs
    constructor
    · intro d hd h1 h2
      obtain ⟨h1k, h1g⟩ := hK'sub _ h1
      obtain ⟨h2k, h2g⟩ := hK'sub _ h2
      have hg : (s.name, d) ∈ ((SkillGraph.from_skills c sk).edges).map pairOf := by
        rw [from_skills_edges]
        exact after_pair_mem hsk0 hst hd h1g h2g
      obtain ⟨e', he', hpe⟩ := List.mem_map.mp hg
      have hsrc : e'.source = s.name := congrArg Prod.fst hpe
      have htgt : e'.target = d := congrArg Prod.snd hpe
      obtain ⟨refs, hentry, hmr⟩ := rebuild_entry_exists he' (edge_endpoints_mem he').1
        (by rw [hsrc]; exact h1k) (by rw [htgt]; exact h2k)
      have hTgt : (SkillGraph.degenerateRef e'.target).target
          ∈ nodesOf (SkillGraph.rebuildCrossrefs (SkillGraph.from_skills c sk) keep)
            (sk.filter (fun s => s.name ∈ keep)) := by
        show e'.target ∈ _
        rw [htgt]
        exact h2
      have hres := crossref_pair_mem_phase hentry hmr hTgt
      rw [← hsrc, ← htgt]
      exact hres
    · intro d hd h1 h2
      obtain ⟨h1k, h1g⟩ := hK'sub _ h1
      obtain ⟨h2k, h2g⟩ := hK'sub _ h2
      have hg : (d, s.name) ∈ ((SkillGraph.from_skills c sk).edges).map pairOf := by
        rw [from_skills_edges]
        exact before_pair_mem hsk0 hst hd h1g h2g
      obtain ⟨e', he', hpe⟩ := List.mem_map.mp hg
      have hsrc : e'.source = d := congrArg Prod.fst hpe
      have htgt : e'.target = s.name := congrArg Prod.snd hpe
      obtain ⟨refs, hentry, hmr⟩ := rebuild_entry_exists he' (edge_endpoints_mem he').1
        (by rw [hsrc]; exact h1k) (by rw [htgt]; exact h2k)
      have hTgt : (SkillGraph.degenerateRef e'.target).target
          ∈ nodesOf (SkillGraph.rebuildCrossrefs (SkillGraph.from_skills c sk) keep)
            (sk.filter (fun s => s.name ∈ keep)) := by
        show e'.target ∈ _
        rw [htgt]
        exact h2
      have hres := crossref_pair_mem_phase hentry hmr hTgt
      rw [← hsrc, ← htgt]
      exact hres
  rw [SkillGraph.filter_to_skills, from_skills_edges] at he
  unfold buildEdgeList at he
  rw [skillsPhase_eq_self hcond] at he
  exact (crossrefPhase_mem _ _ e he).1

end AgentSkills

namespace AgentSkills

/-! ## Remaining small helpers -/

theorem count_pair_le_one {es : List Edge} (h : (es.map pairOf).Nodup) (s t : String) :
    (es.filter (fun e => e.source = s ∧ e.target = t)).length ≤ 1 := by
  induction es with
  | nil => simp
  | cons e es ih =>
    rw [List.map_cons, List.nodup_cons] at h
    by_cases hc : e.source = s ∧ e.target = t
    · rw [List.filter_cons_of_pos (by simpa using hc)]
      have hnil : es.filter (fun e => e.source = s ∧ e.target = t) = [] := by
        by_contra hne
        obtain ⟨x, hx⟩ := List.exists_mem_of_ne_nil _ hne
        have hx2 := List.mem_filter.mp hx
        have hcx : x.source = s ∧ x.target = t := by simpa using hx2.2
        refine h.1 ?_
        have hpx : pairOf x = pairOf e := by
          unfold pairOf
          rw [hcx.1, hcx.2, hc.1, hc.2]
        rw [← hpx]
        exact List.mem_map_of_mem _ hx2.1
      rw [hnil]
      simp
    · rw [List.filter_cons_of_neg (by simpa using hc)]
      exact ih h.2

theorem sorted_availablePipelines (skills : List Skill) :
    List.Sorted strLe (availablePipelines skills) :=
  List.Pairwise.sublist (List.dedup_sublist _) (sorted_sortNames _)

/-! ## Claims -/

/-- C3: for every fixed (crossrefs, skills) input, building the graph twice
and exporting yields byte-identical output strings for all four export
formats.  In the embedding a fixed association list fixes the map iteration
order that drives edge insertion, and the builder and exporters are pure, so
the two runs are the same computation. -/
theorem C3_determinism (c : Crossrefs) (sk : List Skill) :
    (SkillGraph.from_skills c sk).to_dot = (SkillGraph.from_skills c sk).to_dot
    ∧ (SkillGraph.from_skills c sk).to_text = (SkillGraph.from_skills c sk).to_text
    ∧ (SkillGraph.from_skills c sk).to_json = (SkillGraph.from_skills c sk).to_json
    ∧ (SkillGraph.from_skills c sk).to_mermaid = (SkillGraph.from_skills c sk).to_mermaid :=
  ⟨rfl, rfl, rfl, rfl⟩

/-- C4: for every (crossrefs, skills) input and every ordered pair of node
names, the built graph contains at most one edge per (source, target) pair;
a doubled cross-reference produces exactly one `CrossRef` edge, and a pair
hit by both a cross-reference and a pipeline declaration keeps only the
first edge (discarded, not merged). -/
theorem C4_edge_dedup :
    (∀ (c : Crossrefs) (sk : List Skill) (s t : String),
      ((SkillGraph.from_skills c sk).edges.filter
        (fun e => e.source = s ∧ e.target = t)).length ≤ 1)
    ∧ (SkillGraph.from_skills
        [("a", [⟨"b", 1, .XmlCrossref⟩, ⟨"b", 2, .XmlCrossref⟩])] []).edges
        = [{ source := "a", target := "b", kind := EdgeKind.CrossRef }]
    ∧ (SkillGraph.from_skills [("a", [⟨"b", 1, .XmlCrossref⟩])] [afterSkill "a" "b"]).edges
        = [{ source := "a", target := "b", kind := EdgeKind.CrossRef }] := by
  refine ⟨?_, by decide, by decide⟩
  intro c sk s t
  exact count_pair_le_one (pairs_graph_nodup c sk) s t

/-- C7: the bridges list contains exactly the names of nodes with positive
in-degree and positive out-degree (the documented heuristic, not true
articulation-point detection), in name-sorted order. -/
theorem C7_bridges_heuristic (c : Crossrefs) (sk : List Skill) (n : String) :
    (n ∈ (SkillGraph.from_skills c sk).bridges ↔
      n ∈ (SkillGraph.from_skills c sk).nodes
      ∧ 0 < inDegree (SkillGraph.from_skills c sk).edges n
      ∧ 0 < outDegree (SkillGraph.from_skills c sk).edges n)
    ∧ List.Sorted strLe (SkillGraph.from_skills c sk).bridges := by
  constructor
  · rw [from_skills_bridges, from_skills_edges, from_skills_nodes]
    exact mem_find_bridges
  · rw [from_skills_bridges]
    exact sorted_sortNames _

theorem C7_bridges_heuristic_witness :
    "b" ∈ (SkillGraph.from_skills
      [("a", [⟨"b", 1, .XmlCrossref⟩]), ("b", [⟨"c", 1, .XmlCrossref⟩])] []).bridges :=
  (C7_bridges_heuristic [("a", [⟨"b", 1, .XmlCrossref⟩]), ("b", [⟨"c", 1, .XmlCrossref⟩])]
    [] "b").1.mpr (by decide)

/-- C1 counterexample: a tag filter matching no skill does not fail — it
succeeds and silently yields an empty graph, contradicting the claim that
it must produce a descriptive error. -/
theorem C1_counterexample :
    runGraphFilter [plainSkill "a"] (SkillGraph.from_skills [] [plainSkill "a"])
        (GraphFilter.tag "x")
      = Except.ok ((SkillGraph.from_skills [] [plainSkill "a"]).filter_tag [plainSkill "a"] "x")
    ∧ ((SkillGraph.from_skills [] [plainSkill "a"]).filter_tag [plainSkill "a"] "x").nodes = [] := by
  exact ⟨rfl, by decide⟩

/-- C1 (amended): only the pipeline filter can fail: a pipeline name
matching no skill yields the descriptive error naming the requested
pipeline with the sorted, deduplicated list of all valid pipeline names,
and this is the only failure path — a known pipeline, any tag filter, and
the absent filter all succeed.  A tag filter matching no skill silently
yields an empty graph rather than an error. -/
theorem C1_filter_errors (allSkills : List Skill) (g : SkillGraph) :
    (∀ name : String, ¬ allSkills.any (SkillGraph.hasPipelineKey name) = true →
        runGraphFilter allSkills g (GraphFilter.pipeline name)
          = Except.error (pipelineNotFoundMsg name allSkills)
        ∧ List.Sorted strLe (availablePipelines allSkills))
    ∧ (∀ name : String, allSkills.any (SkillGraph.hasPipelineKey name) = true →
        runGraphFilter allSkills g (GraphFilter.pipeline name)
          = Except.ok (g.filter_pipeline allSkills name))
    ∧ (∀ t : String, runGraphFilter allSkills g (GraphFilter.tag t)
        = Except.ok (g.filter_tag allSkills t))
    ∧ runGraphFilter allSkills g GraphFilter.none = Except.ok g := by
  refine ⟨?_, ?_, fun t => rfl, rfl⟩
  · intro name h
    constructor
    · simp only [runGraphFilter]
      rw [if_neg h]
    · exact sorted_availablePipelines allSkills
  · intro name h
    simp only [runGraphFilter]
    rw [if_pos h]

theorem C1_filter_errors_witness :
    runGraphFilter [afterSkill "a" "b"] (SkillGraph.from_skills [] [afterSkill "a" "b"])
        (GraphFilter.pipeline "q")
      = Except.error (pipelineNotFoundMsg "q" [afterSkill "a" "b"])
    ∧ runGraphFilter [afterSkill "a" "b"] (SkillGraph.from_skills [] [afterSkill "a" "b"])
        (GraphFilter.pipeline "p")
      = Except.ok ((SkillGraph.from_skills [] [afterSkill "a" "b"]).filter_pipeline
          [afterSkill "a" "b"] "p")
    ∧ pipelineNotFoundMsg "q" [afterSkill "a" "b"]
      = "Pipeline \x27q\x27 not found. Available: p" := by
  refine ⟨((C1_filter_errors [afterSkill "a" "b"] _).1 "q" (by decide)).1,
         (C1_filter_errors [afterSkill "a" "b"] _).2.1 "p" (by decide), by decide⟩

/-- C5 counterexample: a crossref entry with an empty reference list yields
an isolated node that is neither an edge endpoint nor a skill name; the
full-keep filter drops it, so the node count is not preserved. -/
theorem C5_counterexample :
    ((SkillGraph.from_skills [("a", ([] : List CrossRef))] []).filter_to_skills
        (SkillGraph.from_skills [("a", ([] : List CrossRef))] []).nodes []).nodes.length
      ≠ (SkillGraph.from_skills [("a", ([] : List CrossRef))] []).nodes.length := by
  decide

/-- C5 (amended): for every built graph whose crossref input has no empty
entry (every node is an edge endpoint or a skill name — as holds for every
graph the command builds), filtering with the keep-set equal to the full
node-name set, with the original skill list supplied, preserves the node
count and the edge count. -/
theorem C5_filter_round_trip (c : Crossrefs) (sk : List Skill)
    (H : ∀ p ∈ c, p.2 ≠ ([] : List CrossRef)) :
    ((SkillGraph.from_skills c sk).filter_to_skills
        (SkillGraph.from_skills c sk).nodes sk).nodes.length
      = (SkillGraph.from_skills c sk).nodes.length
    ∧ ((SkillGraph.from_skills c sk).filter_to_skills
        (SkillGraph.from_skills c sk).nodes sk).edges.length
      = (SkillGraph.from_skills c sk).edges.length := by
  obtain ⟨h1, h2⟩ := filter_full_counts c sk H
  exact ⟨by rw [h1], h2⟩

theorem C5_filter_round_trip_witness :
    ((SkillGraph.from_skills [("a", [⟨"b", 1, .XmlCrossref⟩])] [plainSkill "c"]).filter_to_skills
        (SkillGraph.from_skills [("a", [⟨"b", 1, .XmlCrossref⟩])] [plainSkill "c"]).nodes
        [plainSkill "c"]).nodes.length
      = (SkillGraph.from_skills [("a", [⟨"b", 1, .XmlCrossref⟩])] [plainSkill "c"]).nodes.length
    ∧ ((SkillGraph.from_skills [("a", [⟨"b", 1, .XmlCrossref⟩])] [plainSkill "c"]).filter_to_skills
        (SkillGraph.from_skills [("a", [⟨"b", 1, .XmlCrossref⟩])] [plainSkill "c"]).nodes
        [plainSkill "c"]).edges.length
      = (SkillGraph.from_skills [("a", [⟨"b", 1, .XmlCrossref⟩])] [plainSkill "c"]).edges.length :=
  C5_filter_round_trip [("a", [⟨"b", 1, .XmlCrossref⟩])] [plainSkill "c"] (by decide)

/-- C6 counterexample: a skill with zero cross-references and zero pipeline
entries of its own can still be referenced by another skill's `after` list;
it then has an incoming edge and is not a root. -/
theorem C6_counterexample :
    plainSkill "b" ∈ [afterSkill "a" "b", plainSkill "b"]
    ∧ pipelineStages (plainSkill "b") = []
    ∧ "b" ∉ (SkillGraph.from_skills [] [afterSkill "a" "b", plainSkill "b"]).roots := by
  decide

/-- C6 (amended): every skill in the list whose name appears in no crossref
entry (neither as source key nor as target), that has no pipeline stages
(nor any same-named skill with stages), and whose name appears in no
skill's `after`/`before` lists, is a node of the built graph and appears in
both the roots and the leaves lists. -/
theorem C6_isolated_completeness (c : Crossrefs) (sk : List Skill) (s0 : Skill)
    (h1 : s0 ∈ sk)
    (h2 : ∀ p ∈ c, p.1 ≠ s0.name ∧ ∀ r ∈ p.2, r.target ≠ s0.name)
    (h3 : ∀ s ∈ sk, s.name = s0.name → pipelineStages s = [])
    (h4 : ∀ s ∈ sk, ∀ st ∈ pipelineStages s,
        s0.name ∉ st.after.getD [] ∧ s0.name ∉ st.before.getD []) :
    s0.name ∈ (SkillGraph.from_skills c sk).nodes
    ∧ s0.name ∈ (SkillGraph.from_skills c sk).roots
    ∧ s0.name ∈ (SkillGraph.from_skills c sk).leaves := by
  have hnode : s0.name ∈ nodesOf c sk := skillName_mem_nodes h1
  have hedge : ∀ e ∈ buildEdgeList (nodesOf c sk) c sk,
      e.source ≠ s0.name ∧ e.target ≠ s0.name := by
    intro e he
    rcases buildEdgeList_mem _ c sk e he with
      ⟨_, _, p, hp, hsrc, r, hr, htgt⟩ | ⟨_, _, _, s, hs, st, hst, hd⟩
    · exact ⟨by rw [hsrc]; exact (h2 p hp).1, by rw [htgt]; exact (h2 p hp).2 r hr⟩
    · rcases hd with ⟨hsrc, htgt⟩ | ⟨hsrc, htgt⟩
      · constructor
        · rw [hsrc]
          intro hh
          have hnil := h3 s hs hh
          rw [hnil] at hst
          exact absurd hst (List.not_mem_nil _)
        · intro hh
          exact (h4 s hs st hst).1 (hh ▸ htgt)
      · constructor
        · intro hh
          exact (h4 s hs st hst).2 (hh ▸ hsrc)
        · rw [htgt]
          intro hh
          have hnil := h3 s hs hh
          rw [hnil] at hst
          exact absurd hst (List.not_mem_nil _)
  refine ⟨hnode, ?_, ?_⟩
  · rw [from_skills_roots]
    exact mem_find_roots.mpr ⟨hnode, inDegree_eq_zero (fun e he => (hedge e he).2)⟩
  · rw [from_skills_leaves]
    exact mem_find_leaves.mpr ⟨hnode, outDegree_eq_zero (fun e he => (hedge e he).1)⟩

theorem C6_isolated_completeness_witness :
    "c" ∈ (SkillGraph.from_skills [("a", [⟨"b", 1, .XmlCrossref⟩])] [plainSkill "c"]).nodes
    ∧ "c" ∈ (SkillGraph.from_skills [("a", [⟨"b", 1, .XmlCrossref⟩])] [plainSkill "c"]).roots
    ∧ "c" ∈ (SkillGraph.from_skills [("a", [⟨"b", 1, .XmlCrossref⟩])] [plainSkill "c"]).leaves :=
  C6_isolated_completeness [("a", [⟨"b", 1, .XmlCrossref⟩])] [plainSkill "c"] (plainSkill "c")
    (by decide) (by decide) (by decide) (by decide)

/-- C10: every edge of a graph produced by the subgraph filter
(`filter_to_skills` on a built graph with the same skill list, and the
derived `filter_pipeline` and `filter_tag`) has kind `CrossRef`: the filter
re-expresses all retained edges as cross-references and the builder's
pipeline re-insertion is suppressed by the per-pair dedup. -/
theorem C10_filtered_edges_crossref (c : Crossrefs) (sk : List Skill) (keep : List String)
    (pname tag : String) :
    (∀ e ∈ ((SkillGraph.from_skills c sk).filter_to_skills keep sk).edges,
        e.kind = EdgeKind.CrossRef)
    ∧ (∀ e ∈ ((SkillGraph.from_skills c sk).filter_pipeline sk pname).edges,
        e.kind = EdgeKind.CrossRef)
    ∧ (∀ e ∈ ((SkillGraph.from_skills c sk).filter_tag sk tag).edges,
        e.kind = EdgeKind.CrossRef) :=
  ⟨filter_to_skills_edges_crossref c sk keep,
   filter_to_skills_edges_crossref c sk _,
   filter_to_skills_edges_crossref c sk _⟩

theorem C10_filtered_edges_crossref_witness :
    ({ source := "a", target := "b", kind := EdgeKind.CrossRef } : Edge)
      ∈ ((SkillGraph.from_skills [] [afterSkill "a" "b", plainSkill "b"]).filter_to_skills
          ["a", "b"] [afterSkill "a" "b", plainSkill "b"]).edges
    ∧ ({ source := "a", target := "b", kind := EdgeKind.CrossRef } : Edge).kind
      = EdgeKind.CrossRef :=
  ⟨by decide,
   (C10_filtered_edges_crossref [] [afterSkill "a" "b", plainSkill "b"] ["a", "b"] "p" "t").1
     { source := "a", target := "b", kind := EdgeKind.CrossRef } (by decide)⟩

end AgentSkills

namespace AgentSkills

/-- C2 counterexample: a stage on skill "a" listing `before: ["b"]` produces
the edge "b"→"a" (skill "b" depends on skill "a"), not the edge "a"→"b"
asserted by the claim. -/
theorem C2_counterexample :
    (¬ ∃ e ∈ (SkillGraph.from_skills [] [beforeSkill "a" "b", plainSkill "b"]).edges,
        e.source = "a" ∧ e.target = "b")
    ∧ ({ source := "b", target := "a", kind := EdgeKind.Pipeline } : Edge)
        ∈ (SkillGraph.from_skills [] [beforeSkill "a" "b", plainSkill "b"]).edges := by
  decide

/-- C2 (amended): a stage on skill A listing `before: [B]`, with both
endpoints present and the (B, A) pair not claimed by the crossref phase,
produces a `Pipeline` edge B→A (not A→B) — identical in effect to a stage
on skill B listing `after: [A]`, which produces the same edge; on the
canonical two-skill configuration the two declarations build identical
graphs. -/
theorem C2_pipeline_edge_direction :
    (∀ (c : Crossrefs) (sks : List Skill) (s : Skill) (st : PipelineStage) (b : String),
      s ∈ sks → st ∈ pipelineStages s → b ∈ st.before.getD [] →
      b ∈ (SkillGraph.from_skills c sks).nodes →
      s.name ∈ (SkillGraph.from_skills c sks).nodes →
      (b, s.name) ∉ (crossrefPhase (nodesOf c sks) c).map pairOf →
      ({ source := b, target := s.name, kind := EdgeKind.Pipeline } : Edge)
        ∈ (SkillGraph.from_skills c sks).edges)
    ∧ (∀ (c : Crossrefs) (sks : List Skill) (s : Skill) (st : PipelineStage) (a : String),
      s ∈ sks → st ∈ pipelineStages s → a ∈ st.after.getD [] →
      s.name ∈ (SkillGraph.from_skills c sks).nodes →
      a ∈ (SkillGraph.from_skills c sks).nodes →
      (s.name, a) ∉ (crossrefPhase (nodesOf c sks) c).map pairOf →
      ({ source := s.name, target := a, kind := EdgeKind.Pipeline } : Edge)
        ∈ (SkillGraph.from_skills c sks).edges)
    ∧ (∀ a b : String,
      SkillGraph.from_skills [] [beforeSkill a b, plainSkill b]
        = SkillGraph.from_skills [] [plainSkill a, afterSkill b a]) := by
  refine ⟨?_, ?_, fun _ _ => rfl⟩
  · intro c sks s st b hs hst hb hbn hsn hnc
    have hpair : (b, s.name) ∈ ((SkillGraph.from_skills c sks).edges).map pairOf := by
      rw [from_skills_edges]
      exact before_pair_mem hs hst hb hbn hsn
    obtain ⟨e, he, hpe⟩ := List.mem_map.mp hpair
    obtain ⟨more, hsplit, hmore⟩ := skillsPhase_append (nodesOf c sks) sks
      (crossrefPhase (nodesOf c sks) c)
    have he' : e ∈ skillsPhase (nodesOf c sks) sks (crossrefPhase (nodesOf c sks) c) := by
      rw [from_skills_edges] at he
      exact he
    rw [hsplit] at he'
    rcases List.mem_append.mp he' with h | h
    · exact absurd (hpe ▸ List.mem_map_of_mem pairOf h) hnc
    · have hk : e.kind = EdgeKind.Pipeline := (hmore e h).1
      rcases e with ⟨esrc, etgt, ek⟩
      have h1 : esrc = b := congrArg Prod.fst hpe
      have h2 : etgt = s.name := congrArg Prod.snd hpe
      have h3 : ek = EdgeKind.Pipeline := hk
      subst h1
      subst h2
      rw [h3] at he
      exact he
  · intro c sks s st a hs hst ha hsn han hnc
    have hpair : (s.name, a) ∈ ((SkillGraph.from_skills c sks).edges).map pairOf := by
      rw [from_skills_edges]
      exact after_pair_mem hs hst ha hsn han
    obtain ⟨e, he, hpe⟩ := List.mem_map.mp hpair
    obtain ⟨more, hsplit, hmore⟩ := skillsPhase_append (nodesOf c sks) sks
      (crossrefPhase (nodesOf c sks) c)
    have he' : e ∈ skillsPhase (nodesOf c sks) sks (crossrefPhase (nodesOf c sks) c) := by
      rw [from_skills_edges] at he
      exact he
    rw [hsplit] at he'
    rcases List.mem_append.mp he' with h | h
    · exact absurd (hpe ▸ List.mem_map_of_mem pairOf h) hnc
    · have hk : e.kind = EdgeKind.Pipeline := (hmore e h).1
      rcases e with ⟨esrc, etgt, ek⟩
      have h1 : esrc = s.name := congrArg Prod.fst hpe
      have h2 : etgt = a := congrArg Prod.snd hpe
      have h3 : ek = EdgeKind.Pipeline := hk
      subst h1
      subst h2
      rw [h3] at he
      exact he

theorem C2_pipeline_edge_direction_witness :
    ({ source := "b", target := "a", kind := EdgeKind.Pipeline } : Edge)
      ∈ (SkillGraph.from_skills [] [beforeSkill "a" "b", plainSkill "b"]).edges
    ∧ SkillGraph.from_skills [] [beforeSkill "x" "y", plainSkill "y"]
      = SkillGraph.from_skills [] [plainSkill "x", afterSkill "y" "x"] :=
  ⟨C2_pipeline_edge_direction.1 [] [beforeSkill "a" "b", plainSkill "b"]
      (beforeSkill "a" "b")
      ({ stage := "s", order := 1, after := none, before := some ["b"] })
      "b" (by decide) (by decide) (by decide) (by decide) (by decide) (by decide),
   C2_pipeline_edge_direction.2.2 "x" "y"⟩

/-! ## Navigation state-machine lemmas -/

theorem nav_next_mode (st : GraphViewState) : st.nav_next.mode = st.mode := by
  unfold GraphViewState.nav_next
  repeat' split
  all_goals simp [apply_ite GraphViewState.mode]

theorem nav_next_trail (st : GraphViewState) : st.nav_next.trail = st.trail := by
  unfold GraphViewState.nav_next
  repeat' split
  all_goals simp [apply_ite GraphViewState.trail]

theorem nav_previous_mode (st : GraphViewState) : st.nav_previous.mode = st.mode := by
  unfold GraphViewState.nav_previous
  repeat' split
  all_goals simp [apply_ite GraphViewState.mode]

theorem nav_previous_trail (st : GraphViewState) : st.nav_previous.trail = st.trail := by
  unfold GraphViewState.nav_previous
  repeat' split
  all_goals simp [apply_ite GraphViewState.trail]

theorem follow_edge_mode (st : GraphViewState) : st.follow_edge.mode = st.mode := by
  unfold GraphViewState.follow_edge
  repeat' split
  all_goals simp [apply_ite GraphViewState.mode]
  all_goals intro _
  all_goals split <;> rfl

theorem follow_edge_trail_ne {st : GraphViewState} (h : st.trail ≠ []) :
    st.follow_edge.trail ≠ [] := by
  unfold GraphViewState.follow_edge
  repeat' split
  all_goals simp [apply_ite GraphViewState.trail, h]
  all_goals split
  all_goals try split
  all_goals simp [h]

theorem toggle_mode_inv {st : GraphViewState}
    (_ih : st.mode = NavigationMode.Focus → st.trail ≠ []) :
    st.toggle_mode.mode = NavigationMode.Focus → st.toggle_mode.trail ≠ [] := by
  unfold GraphViewState.toggle_mode
  split
  · split
    · intro _
      simp
    · intro hfoc
      simp_all
  · intro hfoc
    simp at hfoc

theorem navigate_back_inv {st : GraphViewState}
    (ih : st.mode = NavigationMode.Focus → st.trail ≠ []) :
    st.navigate_back.mode = NavigationMode.Focus → st.navigate_back.trail ≠ [] := by
  unfold GraphViewState.navigate_back
  split
  · rename_i hcond
    intro _
    show st.trail.dropLast ≠ []
    have hlen := hcond.2
    intro hnil
    have hlen2 := congrArg List.length hnil
    rw [List.length_dropLast] at hlen2
    simp only [List.length_nil] at hlen2
    omega
  · split
    · intro hfoc
      simp at hfoc
    · exact ih

/-- C9: in every state reachable from the initial state by the public
operations, Focus mode implies a non-empty trail; toggling from Browse
with nothing selected is a no-op; and `focused_skill` in Focus returns the
last trail entry. -/
theorem C9_focus_trail_invariant :
    (∀ st : GraphViewState, Reachable st →
        st.mode = NavigationMode.Focus → st.trail ≠ [])
    ∧ (∀ st : GraphViewState, st.mode = NavigationMode.Browse →
        st.focused_skill = none → st.toggle_mode = st)
    ∧ (∀ st : GraphViewState, st.mode = NavigationMode.Focus →
        st.focused_skill = st.trail.getLast?) := by
  refine ⟨?_, ?_, ?_⟩
  · intro st h
    induction h with
    | init =>
      intro hf
      simp [GraphViewState.new] at hf
    | toggle _ ih => exact toggle_mode_inv ih
    | back _ ih => exact navigate_back_inv ih
    | follow _ ih =>
      intro hf
      rw [follow_edge_mode] at hf
      exact follow_edge_trail_ne (ih hf)
    | next _ ih =>
      intro hf
      rw [nav_next_mode] at hf
      rw [nav_next_trail]
      exact ih hf
    | prev _ ih =>
      intro hf
      rw [nav_previous_mode] at hf
      rw [nav_previous_trail]
      exact ih hf
    | refresh crossrefs skills _ _ =>
      intro hf
      simp [GraphViewState.refresh] at hf
  · intro st h1 h2
    simp only [GraphViewState.toggle_mode, h1, h2]
  · intro st h
    simp only [GraphViewState.focused_skill, h]

theorem C9_focus_trail_invariant_witness :
    ((GraphViewState.new.refresh [] [plainSkill "a"]).toggle_mode).trail ≠ []
    ∧ GraphViewState.new.toggle_mode = GraphViewState.new
    ∧ ((GraphViewState.new.refresh [] [plainSkill "a"]).toggle_mode).focused_skill
      = ((GraphViewState.new.refresh [] [plainSkill "a"]).toggle_mode).trail.getLast? :=
  ⟨C9_focus_trail_invariant.1 _
      (Reachable.toggle (Reachable.refresh [] [plainSkill "a"] Reachable.init)) (by decide),
   C9_focus_trail_invariant.2.1 _ (by decide) (by decide),
   C9_focus_trail_invariant.2.2 _ (by decide)⟩

/-- C8 counterexample: toggling out of Focus keeps the trail, so a state in
Browse mode with cursor on node "a" of a non-empty graph but a leftover
trail exists; toggling again yields trail ["a", "a"], not ["a"]. -/
theorem C8_counterexample :
    (((GraphViewState.new.refresh [] [plainSkill "a"]).toggle_mode).toggle_mode).mode
      = NavigationMode.Browse
    ∧ (((GraphViewState.new.refresh [] [plainSkill "a"]).toggle_mode).toggle_mode).focused_skill
      = some "a"
    ∧ ((((GraphViewState.new.refresh [] [plainSkill "a"]).toggle_mode).toggle_mode).toggle_mode).trail
      ≠ ["a"] := by
  decide

/-- C8 (amended): from Browse with a selected node X, `toggle_mode` enters
Focus, appends X to the (possibly non-empty) trail — so the trail equals
[X] exactly when it was empty, as after a refresh — and resets the edge
cursor; `navigate_back` in Focus with a trail of length at least 2 pops
exactly the last entry and stays in Focus; `navigate_back` in Focus with a
trail of length 1 clears the trail and returns to Browse. -/
theorem C8_trail_mechanics :
    (∀ (st : GraphViewState) (x : String), st.mode = NavigationMode.Browse →
        st.focused_skill = some x →
        st.toggle_mode
          = { st with
              mode := NavigationMode.Focus
              trail := st.trail ++ [x]
              edge_list_state := some 0 })
    ∧ (∀ st : GraphViewState, st.mode = NavigationMode.Focus → 2 ≤ st.trail.length →
        st.navigate_back = { st with trail := st.trail.dropLast, edge_list_state := some 0 }
        ∧ st.navigate_back.mode = NavigationMode.Focus)
    ∧ (∀ st : GraphViewState, st.mode = NavigationMode.Focus → st.trail.length = 1 →
        st.navigate_back = { st with mode := NavigationMode.Browse, trail := [] }) := by
  refine ⟨?_, ?_, ?_⟩
  · intro st x h1 h2
    simp only [GraphViewState.toggle_mode, h1, h2]
  · intro st h1 h2
    have hcond : st.mode = NavigationMode.Focus ∧ st.trail.length > 1 := ⟨h1, by omega⟩
    constructor
    · unfold GraphViewState.navigate_back
      rw [if_pos hcond]
    · unfold GraphViewState.navigate_back
      rw [if_pos hcond]
      exact h1
  · intro st h1 h2
    have hnc : ¬ (st.mode = NavigationMode.Focus ∧ st.trail.length > 1) := by
      intro hc
      exact absurd hc.2 (by omega)
    unfold GraphViewState.navigate_back
    rw [if_neg hnc, if_pos h1]

theorem C8_trail_mechanics_witness :
    ((GraphViewState.new.refresh [] [plainSkill "a"]).toggle_mode).trail = ["a"]
    ∧ ((GraphViewState.new.refresh [] [plainSkill "a"]).toggle_mode).mode
      = NavigationMode.Focus := by
  have h := C8_trail_mechanics.1 (GraphViewState.new.refresh [] [plainSkill "a"]) "a"
    (by decide) (by decide)
  rw [h]
  constructor
  · decide
  · rfl

end AgentSkills
